import Mathlib

set_option linter.unusedSectionVars false

/-!
Shallow embedding of `src/code/src/bin/lru_implementation.rs`.

The Rust code implements an LRU cache as a `HashMap<K, (V, *mut LruNode<K, V>)>`
together with an intrusive doubly linked list of heap-allocated `LruNode`s
(`head : Option<Box<LruNode>>`, `tail : *mut LruNode`, and raw `prev`/`next`
pointers inside each node).

The embedding models the Rust heap explicitly: node addresses are natural
numbers, the heap is a function `Nat → Option (LruNode K V)`, and a raw
pointer is an address (`ptr::null_mut()` becomes `Option.none` where the code
compares against null, i.e. `prev`/`next`/`tail` are `Option Nat`).
`Box::new` is modelled by an allocator counter `fresh`: each allocation takes
the next unused address.  Dereferencing a pointer reads the heap and fails
(`Option.none` at the operation level) when the address holds no node;
`Option::unwrap` likewise fails on `none`.  Reassigning `self.head` is
modelled as a pointer update (the model does not track deallocation, so
addresses of evicted nodes simply become unreachable garbage).
-/

namespace LruDemo

/-- `struct LruNode<K, V>` (lines 19-25 of the source): key, value, and raw
`prev`/`next` pointers, with null pointers modelled as `none`. -/
structure LruNode (K V : Type) where
  key : K
  value : V
  prev : Option Nat
  next : Option Nat

/-- `LruNode::new` (lines 27-36): a fresh node with null `prev`/`next`. -/
def LruNode.new {K V : Type} (key : K) (value : V) : LruNode K V :=
  ⟨key, value, none, none⟩

/-- The Rust heap restricted to `LruNode` allocations: a partial map from
addresses to nodes. -/
abbrev Heap (K V : Type) := Nat → Option (LruNode K V)

/-- Store a node at address `a` (overwriting whatever is there). -/
def heapSet {K V : Type} (h : Heap K V) (a : Nat) (nd : LruNode K V) : Heap K V :=
  fun b => if b = a then some nd else h b

/-- `(*a).prev = pv`: read the node at `a` and update its `prev` field;
fails if `a` is not allocated (a dereference of an invalid pointer). -/
def setPrev {K V : Type} (h : Heap K V) (a : Nat) (pv : Option Nat) : Option (Heap K V) :=
  (h a).map fun nd => heapSet h a { nd with prev := pv }

/-- `(*a).next = nx`: read the node at `a` and update its `next` field;
fails if `a` is not allocated. -/
def setNext {K V : Type} (h : Heap K V) (a : Nat) (nx : Option Nat) : Option (Heap K V) :=
  (h a).map fun nd => heapSet h a { nd with next := nx }

/-- `struct LruCache<K, V>` (lines 11-17): capacity, the hash map from keys to
`(value, node pointer)` pairs (modelled as an association list with distinct
keys), the list head (`Option<Box<LruNode>>`, an owning pointer) and raw tail
pointer.  `fresh` is the allocator counter of the model: addresses `≥ fresh`
have never been handed out. -/
structure LruCache (K V : Type) where
  capacity : Nat
  map : List (K × V × Nat)
  heap : Heap K V
  head : Option Nat
  tail : Option Nat
  fresh : Nat

variable {K V : Type} [DecidableEq K]

/-- `HashMap::get`: look a key up in the association list. -/
def mapLookup : List (K × V × Nat) → K → Option (V × Nat)
  | [], _ => none
  | (k', vp) :: rest, k => if k = k' then some vp else mapLookup rest k

/-- `HashMap::insert`: replace the binding if the key is present, otherwise
add a new binding. -/
def mapInsert (m : List (K × V × Nat)) (k : K) (vp : V × Nat) : List (K × V × Nat) :=
  match mapLookup m k with
  | some _ => m.map fun e => if e.1 = k then (k, vp) else e
  | none => (k, vp) :: m

/-- `HashMap::remove`: delete the binding for a key. -/
def mapRemove (m : List (K × V × Nat)) (k : K) : List (K × V × Nat) :=
  m.filter fun e => decide (e.1 ≠ k)

/-- `LruCache::new` (lines 39-46): accepts every capacity, starts with an
empty map and a null head/tail.  (The constructor cannot fail: it returns
`Self`, and performs no validation of `capacity`.) -/
def LruCache.new (capacity : Nat) : LruCache K V :=
  ⟨capacity, [], fun _ => none, none, none, 0⟩

/-- `LruCache::move_to_front` (lines 110-135).  Returns `none` when the code
would dereference an invalid pointer or `unwrap` a `None` head. -/
def LruCache.move_to_front (c : LruCache K V) (p : Nat) : Option (LruCache K V) :=
  match c.heap p with
  | none => none
  | some nd =>
    match nd.prev with
    | none => some c          -- lines 112-115: already at front
    | some _ =>
      -- lines 118-123: splice out of the current position
      (match nd.next with
       | some nx => (setPrev c.heap nx nd.prev).map fun h1 => { c with heap := h1 }
       | none => some { c with tail := nd.prev }).bind fun c1 =>
      -- lines 125-127
      (match nd.prev with
       | some pv => (setNext c1.heap pv nd.next).map fun h2 => { c1 with heap := h2 }
       | none => some c1).bind fun c2 =>
      -- lines 130-133: relink at the front
      c2.head.bind fun hd =>
      (c2.heap p).bind fun nd2 =>
      (setPrev (heapSet c2.heap p { nd2 with prev := none, next := some hd }) hd (some p)).map
        fun h4 => { c2 with heap := h4, head := some p }

/-- `LruCache::evict_lru` (lines 137-155). -/
def LruCache.evict_lru (c : LruCache K V) : Option (LruCache K V) :=
  match c.tail with
  | none => some c            -- lines 138-140: null tail, nothing to do
  | some t =>
    (c.heap t).bind fun nd =>
    -- lines 143-144: remove the tail's key from the map
    let m' := mapRemove c.map nd.key
    match nd.prev with
    | none => some { c with map := m', head := none, tail := none }   -- lines 146-149
    | some pv =>
      (setNext c.heap pv none).map fun h' =>
        { c with map := m', tail := some pv, heap := h' }             -- lines 150-153

/-- `LruCache::get` (lines 48-66): on a hit, move the node to the front and
return the value stored in the map; on a miss return `none` with no state
change. -/
def LruCache.get (c : LruCache K V) (key : K) : Option (Option V × LruCache K V) :=
  match mapLookup c.map key with
  | some (_, p) =>
    (c.move_to_front p).map fun c' => (Option.map Prod.fst (mapLookup c'.map key), c')
  | none => some (none, c)

/-- Lines 99-106 of `LruCache::put`: bind the key to `(value, head pointer)`
in the map, then evict if the map has grown past capacity. -/
def LruCache.finishInsert (c : LruCache K V) (key : K) (value : V) : Option (LruCache K V) :=
  let c2 := match c.head with
    | some hp => { c with map := mapInsert c.map key (value, hp) }
    | none => c
  if c2.map.length > c2.capacity then c2.evict_lru else some c2

/-- `LruCache::put` (lines 68-108).  On an existing key the code overwrites
the value stored in the *node* and moves it to the front — the copy of the
value held in the map is left untouched.  On a new key it allocates a node,
links it at the front, inserts the map binding, and evicts on overflow. -/
def LruCache.put (c : LruCache K V) (key : K) (value : V) : Option (LruCache K V) :=
  match mapLookup c.map key with
  | some (_, p) =>
    -- lines 76-81
    (c.heap p).bind fun nd =>
      LruCache.move_to_front { c with heap := heapSet c.heap p { nd with value := value } } p
  | none =>
    -- lines 82-101
    let addr := c.fresh
    let node0 : LruNode K V := LruNode.new key value
    if c.map.length = 0 then
      -- lines 86-89: first node, head and tail both point at it
      LruCache.finishInsert
        { c with heap := heapSet c.heap addr node0, tail := some addr,
                 head := some addr, fresh := addr + 1 } key value
    else
      -- lines 90-97: link in front of the current head
      c.head.bind fun hd =>
      (setPrev (heapSet c.heap addr { node0 with next := some hd }) hd (some addr)).bind
        fun h2 =>
      LruCache.finishInsert
        { c with heap := h2, head := some addr, fresh := addr + 1 } key value

/-- `LruCache::len` (lines 157-159). -/
def LruCache.len (c : LruCache K V) : Nat := c.map.length

/-- `LruCache::is_empty` (lines 161-163). -/
def LruCache.is_empty (c : LruCache K V) : Bool := c.map.isEmpty

/-- The key the next eviction would remove: `(*self.tail).key`. -/
def LruCache.tailKey (c : LruCache K V) : Option K :=
  c.tail.bind fun t => (c.heap t).map LruNode.key

/-!
## The doubly linked list as a heap predicate

`dlseg h l pa a z nz` says that `l` lists, in order, the addresses of a
doubly linked segment of heap `h`: `a` points at the first node (or equals
`nz` when the segment is empty), the first node's `prev` is `pa`, consecutive
nodes are linked by matching `next`/`prev` pointers, `z` points at the last
node (or equals `pa` when empty) and the last node's `next` is `nz`.
The whole recency list of a cache is `dlseg c.heap addrs none c.head c.tail
none`.
-/

def dlseg (h : Heap K V) : List Nat → Option Nat → Option Nat → Option Nat → Option Nat → Prop
  | [], pa, a, z, nz => a = nz ∧ z = pa
  | x :: xs, pa, a, z, nz =>
    a = some x ∧ ∃ nd, h x = some nd ∧ nd.prev = pa ∧ dlseg h xs (some x) nd.next z nz

theorem dlseg_nil {h : Heap K V} {pa a z nz : Option Nat} :
    dlseg h [] pa a z nz ↔ a = nz ∧ z = pa := Iff.rfl

theorem dlseg_cons {h : Heap K V} {x : Nat} {xs : List Nat} {pa a z nz : Option Nat} :
    dlseg h (x :: xs) pa a z nz ↔
      a = some x ∧ ∃ nd, h x = some nd ∧ nd.prev = pa ∧ dlseg h xs (some x) nd.next z nz :=
  Iff.rfl

theorem dlseg_frame {h h' : Heap K V} :
    ∀ {l : List Nat} {pa a z nz : Option Nat},
      (∀ x ∈ l, h' x = h x) → dlseg h l pa a z nz → dlseg h' l pa a z nz
  | [], _, _, _, _, _, hseg => hseg
  | x :: xs, _, _, _, _, hagree, hseg => by
    obtain ⟨ha, nd, hnd, hprev, hrest⟩ := hseg
    exact ⟨ha, nd, (hagree x (by simp)).trans hnd, hprev,
      dlseg_frame (fun y hy => hagree y (by simp [hy])) hrest⟩

theorem dlseg_append {h : Heap K V} :
    ∀ {l₁ l₂ : List Nat} {pa a z nz : Option Nat},
      dlseg h (l₁ ++ l₂) pa a z nz ↔ ∃ m b, dlseg h l₁ pa a m b ∧ dlseg h l₂ m b z nz := by
  intro l₁
  induction l₁ with
  | nil =>
    intro l₂ pa a z nz
    constructor
    · intro hseg
      exact ⟨pa, a, ⟨rfl, rfl⟩, hseg⟩
    · rintro ⟨m, b, ⟨hab, hmpa⟩, hseg⟩
      subst hab; subst hmpa; exact hseg
  | cons x xs ih =>
    intro l₂ pa a z nz
    constructor
    · rintro ⟨ha, nd, hnd, hprev, hrest⟩
      obtain ⟨m, b, h₁, h₂⟩ := ih.mp hrest
      exact ⟨m, b, ⟨ha, nd, hnd, hprev, h₁⟩, h₂⟩
    · rintro ⟨m, b, ⟨ha, nd, hnd, hprev, h₁⟩, h₂⟩
      exact ⟨ha, nd, hnd, hprev, ih.mpr ⟨m, b, h₁, h₂⟩⟩

theorem dlseg_singleton {h : Heap K V} {x : Nat} {pa a z nz : Option Nat} :
    dlseg h [x] pa a z nz ↔
      a = some x ∧ z = some x ∧ ∃ nd, h x = some nd ∧ nd.prev = pa ∧ nd.next = nz := by
  constructor
  · rintro ⟨ha, nd, hnd, hprev, hnil, hz⟩
    exact ⟨ha, hz, nd, hnd, hprev, hnil⟩
  · rintro ⟨ha, hz, nd, hnd, hprev, hnext⟩
    exact ⟨ha, nd, hnd, hprev, hnext, hz⟩

theorem dlseg_mem {h : Heap K V} :
    ∀ {l : List Nat} {pa a z nz : Option Nat},
      dlseg h l pa a z nz → ∀ x ∈ l, ∃ nd, h x = some nd
  | [], _, _, _, _, _, x, hx => absurd hx (List.not_mem_nil x)
  | y :: ys, _, _, _, _, hseg, x, hx => by
    obtain ⟨ha, nd, hnd, hprev, hrest⟩ := hseg
    rcases List.mem_cons.mp hx with hxy | hxs
    · exact hxy ▸ ⟨nd, hnd⟩
    · exact dlseg_mem hrest x hxs

theorem dlseg_setPrevHead {h : Heap K V} {x : Nat} {xs : List Nat}
    {pa a z nz : Option Nat} {nd : LruNode K V}
    (hseg : dlseg h (x :: xs) pa a z nz) (hx : x ∉ xs) (hnd : h x = some nd)
    (pa' : Option Nat) :
    dlseg (heapSet h x { nd with prev := pa' }) (x :: xs) pa' a z nz := by
  obtain ⟨ha, nd₀, hnd₀, hprev₀, hrest⟩ := hseg
  rw [hnd] at hnd₀
  injection hnd₀ with hnd₀; subst hnd₀
  refine ⟨ha, { nd with prev := pa' }, by simp [heapSet], rfl, ?_⟩
  exact dlseg_frame (fun y hy => by
    have : y ≠ x := fun he => hx (he ▸ hy)
    simp [heapSet, this]) hrest

theorem dlseg_setNextLast {h : Heap K V} {l : List Nat} {x : Nat}
    {pa a z nz : Option Nat} {nd : LruNode K V}
    (hseg : dlseg h (l ++ [x]) pa a z nz) (hx : x ∉ l) (hnd : h x = some nd)
    (nz' : Option Nat) :
    dlseg (heapSet h x { nd with next := nz' }) (l ++ [x]) pa a z nz' := by
  obtain ⟨m, b, h₁, h₂⟩ := dlseg_append.mp hseg
  obtain ⟨hb, hz, nd₀, hnd₀, hprev₀, -⟩ := dlseg_singleton.mp h₂
  rw [hnd] at hnd₀
  injection hnd₀ with hnd₀; subst hnd₀
  refine dlseg_append.mpr ⟨m, b, ?_, ?_⟩
  · exact dlseg_frame (fun y hy => by
      have : y ≠ x := fun he => hx (he ▸ hy)
      simp [heapSet, this]) h₁
  · exact dlseg_singleton.mpr ⟨hb, hz, { nd with next := nz' }, by simp [heapSet], hprev₀, rfl⟩

/-! ## Association-list lemmas for the `HashMap` model -/

theorem mapLookup_eq_none {m : List (K × V × Nat)} {k : K} :
    mapLookup m k = none ↔ k ∉ m.map Prod.fst := by
  induction m with
  | nil => simp [mapLookup]
  | cons e rest ih =>
    obtain ⟨k', vp⟩ := e
    by_cases hk : k = k' <;> simp [mapLookup, hk, ih]

theorem mapLookup_mem {m : List (K × V × Nat)} {k : K} {vp : V × Nat} :
    mapLookup m k = some vp → (k, vp) ∈ m := by
  induction m with
  | nil => simp [mapLookup]
  | cons e rest ih =>
    obtain ⟨k', vp'⟩ := e
    by_cases hk : k = k'
    · subst hk; simp [mapLookup]; rintro rfl; left; rfl
    · simp only [mapLookup, if_neg hk]
      intro hl
      exact List.mem_cons_of_mem _ (ih hl)

theorem mem_mapLookup {m : List (K × V × Nat)} (hnd : (m.map Prod.fst).Nodup)
    {k : K} {vp : V × Nat} (hm : (k, vp) ∈ m) : mapLookup m k = some vp := by
  induction m with
  | nil => simp at hm
  | cons e rest ih =>
    obtain ⟨k', vp'⟩ := e
    simp only [List.map_cons, List.nodup_cons] at hnd
    rcases List.mem_cons.mp hm with he | hm'
    · injection he with h1 h2
      subst h1
      simp [mapLookup, h2]
    · have hne : k ≠ k' := by
        rintro rfl
        exact hnd.1 (List.mem_map.mpr ⟨(k, vp), hm', rfl⟩)
      simp only [mapLookup, if_neg hne]
      exact ih hnd.2 hm'

theorem mapLookup_isSome {m : List (K × V × Nat)} {k : K} :
    (mapLookup m k).isSome ↔ k ∈ m.map Prod.fst := by
  rcases hl : mapLookup m k with - | vp
  · simpa using mapLookup_eq_none.mp hl
  · simp only [Option.isSome_some, true_iff]
    exact List.mem_map.mpr ⟨(k, vp), mapLookup_mem hl, rfl⟩

theorem mapRemove_lookup_self {m : List (K × V × Nat)} {k : K} :
    mapLookup (mapRemove m k) k = none := by
  rw [mapLookup_eq_none]
  intro hmem
  obtain ⟨e, he, hek⟩ := List.mem_map.mp hmem
  have := (List.mem_filter.mp he).2
  simp [hek] at this

theorem mapRemove_lookup_ne {m : List (K × V × Nat)} {k k' : K} (hne : k' ≠ k) :
    mapLookup (mapRemove m k) k' = mapLookup m k' := by
  induction m with
  | nil => rfl
  | cons e rest ih =>
    obtain ⟨k₀, vp₀⟩ := e
    simp only [mapRemove, List.filter_cons, ne_eq, decide_not] at ih ⊢
    by_cases hk : k₀ = k
    · subst hk
      simpa [mapLookup, hne] using ih
    · by_cases hk' : k' = k₀ <;> simp [mapLookup, hk, hk', ih]

theorem mapInsert_of_not_mem {m : List (K × V × Nat)} {k : K} (h : mapLookup m k = none)
    (vp : V × Nat) : mapInsert m k vp = (k, vp) :: m := by
  simp [mapInsert, h]

/-! ## Zip helpers -/

theorem zip_map_snd {α β : Type} :
    ∀ {l : List α} {l' : List β}, l.length = l'.length → (l.zip l').map Prod.snd = l'
  | [], [], _ => rfl
  | [], _ :: _, h => by simp at h
  | _ :: _, [], h => by simp at h
  | a :: as, b :: bs, h => by
    simp only [List.zip_cons_cons, List.map_cons]
    exact congrArg (b :: ·) (zip_map_snd (by simpa using h))

theorem zip_mem_split {α β : Type} {x : α} {y : β} :
    ∀ {l : List α} {l' : List β}, (x, y) ∈ l.zip l' →
      ∃ l₁ l₂ m₁ m₂, l = l₁ ++ x :: l₂ ∧ l' = m₁ ++ y :: m₂ ∧ l₁.length = m₁.length
  | [], _, h => by simp at h
  | _ :: _, [], h => by simp at h
  | a :: as, b :: bs, h => by
    rw [List.zip_cons_cons, List.mem_cons] at h
    rcases h with he | hm
    · injection he with h1 h2
      exact ⟨[], as, [], bs, by simp [h1], by simp [h2], rfl⟩
    · obtain ⟨l₁, l₂, m₁, m₂, hl, hm', hlen⟩ := zip_mem_split hm
      exact ⟨a :: l₁, l₂, b :: m₁, m₂, by simp [hl], by simp [hm'], by simp [hlen]⟩

/-!
## The state relation

`RelW c A addrs` ties a cache state to its abstraction `A`: the list of
`(key, map value)` pairs in recency order, most recent first.  `addrs` is the
corresponding list of node addresses.  Note that `A` records the values held
in the `map` field — the copies in the linked-list nodes are what `put`
updates on an existing key, but `get` reads the map copy, so only the map
copy is observable.
-/

structure RelW (c : LruCache K V) (A : List (K × V)) (addrs : List Nat) : Prop where
  chain : dlseg c.heap addrs none c.head c.tail none
  nodupAddrs : addrs.Nodup
  nodupKeys : (A.map Prod.fst).Nodup
  freshBound : ∀ p ∈ addrs, p < c.fresh
  lenEq : addrs.length = A.length
  nodeKeys : ∀ pk ∈ addrs.zip A, ∃ nd, c.heap pk.1 = some nd ∧ nd.key = pk.2.1
  mapPerm : c.map.Perm ((addrs.zip A).map fun pk => (pk.2.1, pk.2.2, pk.1))

/-- The cache states that look like an LRU cache holding entries `A`,
most recent first. -/
def Rel (c : LruCache K V) (A : List (K × V)) : Prop :=
  ∃ addrs, RelW c A addrs

theorem RelW.zipLen {c : LruCache K V} {A : List (K × V)} {addrs : List Nat}
    (hw : RelW c A addrs) : (addrs.zip A).length = A.length := by
  rw [List.length_zip, hw.lenEq, min_self]

theorem RelW.len_eq {c : LruCache K V} {A : List (K × V)} {addrs : List Nat}
    (hw : RelW c A addrs) : c.len = A.length := by
  have := hw.mapPerm.length_eq
  rw [List.length_map, hw.zipLen] at this
  exact this

theorem RelW.keysPerm {c : LruCache K V} {A : List (K × V)} {addrs : List Nat}
    (hw : RelW c A addrs) : (c.map.map Prod.fst).Perm (A.map Prod.fst) := by
  have h1 := hw.mapPerm.map Prod.fst
  rw [List.map_map] at h1
  have h2 : ((addrs.zip A).map (Prod.fst ∘ fun pk => (pk.2.1, pk.2.2, pk.1)))
      = (addrs.zip A).map (Prod.fst ∘ Prod.snd) := by
    apply List.map_congr_left; intro pk _; rfl
  rw [h2] at h1
  have h3 : ((addrs.zip A).map (Prod.fst ∘ Prod.snd))
      = ((addrs.zip A).map Prod.snd).map Prod.fst := by
    rw [List.map_map]
  rw [h3, zip_map_snd hw.lenEq] at h1
  exact h1

theorem RelW.mapNodupKeys {c : LruCache K V} {A : List (K × V)} {addrs : List Nat}
    (hw : RelW c A addrs) : (c.map.map Prod.fst).Nodup :=
  hw.keysPerm.symm.nodup hw.nodupKeys

theorem RelW.lookup_iff {c : LruCache K V} {A : List (K × V)} {addrs : List Nat}
    (hw : RelW c A addrs) {k : K} {v : V} {p : Nat} :
    mapLookup c.map k = some (v, p) ↔ (p, (k, v)) ∈ addrs.zip A := by
  constructor
  · intro hl
    have hm := hw.mapPerm.mem_iff.mp (mapLookup_mem hl)
    obtain ⟨pk, hpk, he⟩ := List.mem_map.mp hm
    obtain ⟨p', k', v'⟩ := pk
    injection he with h1 h2
    injection h2 with h2 h3
    subst h1; subst h2; subst h3
    exact hpk
  · intro hm
    apply mem_mapLookup hw.mapNodupKeys
    exact hw.mapPerm.mem_iff.mpr (List.mem_map.mpr ⟨(p, (k, v)), hm, rfl⟩)

theorem RelW.isSome_iff {c : LruCache K V} {A : List (K × V)} {addrs : List Nat}
    (hw : RelW c A addrs) {k : K} :
    (mapLookup c.map k).isSome ↔ k ∈ A.map Prod.fst := by
  rw [mapLookup_isSome, hw.keysPerm.mem_iff]

theorem RelW.lookup_none_iff {c : LruCache K V} {A : List (K × V)} {addrs : List Nat}
    (hw : RelW c A addrs) {k : K} :
    mapLookup c.map k = none ↔ k ∉ A.map Prod.fst := by
  rw [mapLookup_eq_none, hw.keysPerm.mem_iff]

/-- A hit decomposes both the address list and the abstraction around the
looked-up entry. -/
theorem RelW.hit_split {c : LruCache K V} {A : List (K × V)} {addrs : List Nat}
    (hw : RelW c A addrs) {k : K} {v : V} {p : Nat}
    (hl : mapLookup c.map k = some (v, p)) :
    ∃ front rest A₁ A₂, addrs = front ++ p :: rest ∧ A = A₁ ++ (k, v) :: A₂ ∧
      front.length = A₁.length :=
  zip_mem_split (hw.lookup_iff.mp hl)

/-! ## Heap views -/

theorem heapSet_same {h : Heap K V} {a : Nat} {nd : LruNode K V} :
    heapSet h a nd a = some nd := by simp [heapSet]

theorem heapSet_ne {h : Heap K V} {a b : Nat} (hne : b ≠ a) {nd : LruNode K V} :
    heapSet h a nd b = h b := by simp [heapSet, hne]

/-- The observable (key, value) content of a heap cell. -/
def kvView (h : Heap K V) (a : Nat) : Option (K × V) :=
  (h a).map fun nd => (nd.key, nd.value)

theorem kvView_heapSet {h : Heap K V} {a : Nat} {nd : LruNode K V} (nd' : LruNode K V)
    (hnd : h a = some nd) (hk : nd'.key = nd.key) (hv : nd'.value = nd.value) (b : Nat) :
    kvView (heapSet h a nd') b = kvView h b := by
  by_cases hb : b = a
  · subst hb; simp [kvView, heapSet, hnd, hk, hv]
  · simp [kvView, heapSet, hb]

theorem kvView_node {h h' : Heap K V} (hkv : ∀ a, kvView h' a = kvView h a)
    {a : Nat} {nd : LruNode K V} (hnd : h a = some nd) :
    ∃ nd', h' a = some nd' ∧ nd'.key = nd.key ∧ nd'.value = nd.value := by
  have hv := hkv a
  rw [kvView, kvView, hnd] at hv
  rcases h'a : h' a with - | nd'
  · rw [h'a] at hv; simp at hv
  · rw [h'a] at hv
    simp only [Option.map_some', Option.some.injEq, Prod.mk.injEq] at hv
    exact ⟨nd', rfl, hv.1, hv.2⟩

theorem kvView_node_at {h h' : Heap K V} {a : Nat} (hkv : kvView h' a = kvView h a)
    {nd : LruNode K V} (hnd : h a = some nd) :
    ∃ nd', h' a = some nd' ∧ nd'.key = nd.key ∧ nd'.value = nd.value := by
  rw [kvView, kvView, hnd] at hkv
  rcases h'a : h' a with - | nd'
  · rw [h'a] at hkv; simp at hkv
  · rw [h'a] at hkv
    simp only [Option.map_some', Option.some.injEq, Prod.mk.injEq] at hkv
    exact ⟨nd', rfl, hkv.1, hkv.2⟩

theorem zip_middle {α β : Type} (l₁ l₂ : List α) (m₁ m₂ : List β) (x : α) (y : β)
    (hlen : l₁.length = m₁.length) :
    (l₁ ++ x :: l₂).zip (m₁ ++ y :: m₂) = l₁.zip m₁ ++ (x, y) :: l₂.zip m₂ := by
  rw [List.zip_append hlen, List.zip_cons_cons]

/-!
## Simulation: `move_to_front`

Moving the node at address `p` (the entry `kv`) to the front turns the
abstraction `A₁ ++ kv :: A₂` into `kv :: (A₁ ++ A₂)`; the map, the capacity
and the allocator are untouched, and every heap cell keeps its key and value.
-/

theorem move_spec {c : LruCache K V} {front rest : List Nat} {p : Nat}
    {A₁ A₂ : List (K × V)} {kv : K × V}
    (hw : RelW c (A₁ ++ kv :: A₂) (front ++ p :: rest))
    (hlen : front.length = A₁.length) :
    ∃ c', c.move_to_front p = some c' ∧
      RelW c' (kv :: (A₁ ++ A₂)) (p :: (front ++ rest)) ∧
      c'.map = c.map ∧ c'.capacity = c.capacity ∧ c'.fresh = c.fresh ∧
      c'.head = some p ∧
      (∀ a, kvView c'.heap a = kvView c.heap a) := by
  obtain ⟨m, b, hfront, hrest0⟩ := dlseg_append.mp hw.chain
  obtain ⟨hb, nd, hnd, hprev, hrest⟩ := dlseg_cons.mp hrest0
  subst hb
  have hnodup := hw.nodupAddrs
  rw [List.nodup_append] at hnodup
  obtain ⟨hndF, hndPR, hdisj⟩ := hnodup
  rw [List.nodup_cons] at hndPR
  obtain ⟨hpNotRest, hndR⟩ := hndPR
  have hpNotFront : p ∉ front := fun hp => hdisj hp (List.mem_cons_self p rest)
  -- the permutation between old and new address lists / abstractions
  have hpermAddr : (front ++ p :: rest).Perm (p :: (front ++ rest)) := List.perm_middle
  have hpermA : (A₁ ++ kv :: A₂).Perm (kv :: (A₁ ++ A₂)) := List.perm_middle
  have hzipOld : (front ++ p :: rest).zip (A₁ ++ kv :: A₂)
      = front.zip A₁ ++ (p, kv) :: rest.zip A₂ := zip_middle _ _ _ _ _ _ hlen
  have hzipNew : (p :: (front ++ rest)).zip (kv :: (A₁ ++ A₂))
      = (p, kv) :: (front.zip A₁ ++ rest.zip A₂) := by
    rw [List.zip_cons_cons, List.zip_append hlen]
  have hmapPermNew : c.map.Perm (((p :: (front ++ rest)).zip (kv :: (A₁ ++ A₂))).map
      fun pk => (pk.2.1, pk.2.2, pk.1)) := by
    refine hw.mapPerm.trans ?_
    rw [hzipOld, hzipNew, List.map_append, List.map_cons, List.map_cons, List.map_append]
    exact List.perm_middle
  have hpkvOld : (p, kv) ∈ (front ++ p :: rest).zip (A₁ ++ kv :: A₂) := by
    rw [hzipOld]
    exact List.mem_append_right _ (List.mem_cons_self _ _)
  have hlenEqNew : (p :: (front ++ rest)).length = (kv :: (A₁ ++ A₂)).length := by
    have := hw.lenEq
    simp only [List.length_append, List.length_cons] at this ⊢
    omega
  rcases front with - | ⟨f₀, front₁⟩
  · -- `p` is already at the front: lines 112-115, no state change
    obtain ⟨hheadp, hmnone⟩ := dlseg_nil.mp hfront
    have hprevnone : nd.prev = none := by rw [hprev, hmnone]
    have hA1 : A₁ = [] := by
      rw [List.length_nil] at hlen
      exact (List.length_eq_zero.mp hlen.symm)
    subst hA1
    refine ⟨c, ?_, ?_, rfl, rfl, rfl, hheadp ▸ rfl, fun a => rfl⟩
    · simp only [LruCache.move_to_front, hnd, hprevnone]
    · simpa using hw
  · -- interior or tail node: the four pointer writes of lines 118-133
    obtain ⟨hhead, ndf, hndf, hndfprev, hfronttail⟩ := dlseg_cons.mp hfront
    rcases List.eq_nil_or_concat (f₀ :: front₁) with hnil | ⟨finit, pv, hfv⟩
    · simp at hnil
    rw [List.concat_eq_append] at hfv
    have hfrontC := hfront
    rw [hfv] at hfrontC
    obtain ⟨m₁, b₁, hfin, hpvseg⟩ := dlseg_append.mp hfrontC
    obtain ⟨hb₁, hmpv, ndpv, hndpv, hndpvprev, hndpvnext⟩ := dlseg_singleton.mp hpvseg
    have hprevpv : nd.prev = some pv := by rw [hprev, hmpv]
    have hpvMemF : pv ∈ f₀ :: front₁ := by rw [hfv]; exact List.mem_append_right _ (by simp)
    have hf₀MemF : f₀ ∈ f₀ :: front₁ := List.mem_cons_self _ _
    have hpvNotP : ¬ pv = p := fun he => hpNotFront (he ▸ hpvMemF)
    have hf₀NotP : ¬ f₀ = p := fun he => hpNotFront (he ▸ hf₀MemF)
    have hpNotf₀ : ¬ p = f₀ := fun he => hf₀NotP he.symm
    have hpNotpv : ¬ p = pv := fun he => hpvNotP he.symm
    have hf₀Not₁ : f₀ ∉ front₁ := (List.nodup_cons.mp hndF).1
    have hpvNotFinit : pv ∉ finit := by
      have : (finit ++ [pv]).Nodup := hfv ▸ hndF
      rw [List.nodup_append] at this
      exact fun hm => this.2.2 hm (by simp)
    rcases rest with - | ⟨nx, rest₂⟩
    · -- `p` is the tail node: lines 120-123 move `tail` to `pv`
      obtain ⟨hnextnone, htailp⟩ := dlseg_nil.mp hrest
      -- heap after the three writes
      have hA1f : ∃ ndf₁, heapSet c.heap pv { ndpv with next := none } f₀ = some ndf₁ := by
        by_cases hf : f₀ = pv
        · exact ⟨_, by rw [hf]; exact heapSet_same⟩
        · exact ⟨ndf, by rw [heapSet_ne hf]; exact hndf⟩
      obtain ⟨ndf₁, hndf₁⟩ := hA1f
      refine ⟨{ c with
          heap := heapSet (heapSet (heapSet c.heap pv { ndpv with next := none })
            p { nd with prev := none, next := some f₀ }) f₀ { ndf₁ with prev := some p },
          head := some p, tail := some pv }, ?_, ?_, rfl, rfl, rfl, rfl, ?_⟩
      · -- the computation of `move_to_front`
        simp only [LruCache.move_to_front, hnd, hprevpv, hnextnone, setPrev, setNext,
          Option.map_some', Option.some_bind, hhead]
        rw [show ({ c with tail := nd.prev } : LruCache K V).heap pv = some ndpv from hndpv]
        simp only [Option.map_some', Option.some_bind]
        rw [show heapSet c.heap pv { ndpv with next := none } p = some nd from
          (heapSet_ne hpNotpv).trans hnd]
        simp only [Option.some_bind]
        rw [show heapSet (heapSet c.heap pv { ndpv with next := none })
            p { nd with prev := none, next := some f₀ } f₀ = some ndf₁ from
          (heapSet_ne hf₀NotP).trans hndf₁]
        rfl
      · -- the state relation after the move
        have hkvAll : ∀ a,
            kvView (heapSet (heapSet (heapSet c.heap pv { ndpv with next := none })
              p { nd with prev := none, next := some f₀ }) f₀ { ndf₁ with prev := some p }) a
            = kvView c.heap a := by
          intro a
          have k1 := kvView_heapSet { ndpv with next := none } hndpv rfl rfl a
          have k2 := kvView_heapSet (h := heapSet c.heap pv { ndpv with next := none })
            { nd with prev := none, next := some f₀ }
            ((heapSet_ne hpNotpv).trans hnd) rfl rfl a
          have k3 := kvView_heapSet (h := heapSet (heapSet c.heap pv { ndpv with next := none })
              p { nd with prev := none, next := some f₀ })
            { ndf₁ with prev := some p }
            ((heapSet_ne hf₀NotP).trans hndf₁) rfl rfl a
          exact k3.trans (k2.trans k1)
        have hstep1 : dlseg (heapSet c.heap pv { ndpv with next := none }) (finit ++ [pv])
            none c.head m none :=
          dlseg_setNextLast hfrontC hpvNotFinit hndpv none
        rw [← hfv, hhead, hmpv] at hstep1
        have hstep2 := dlseg_setPrevHead hstep1 hf₀Not₁ hndf₁ (some p)
        have hframe : ∀ x ∈ f₀ :: front₁,
            heapSet (heapSet (heapSet c.heap pv { ndpv with next := none })
              p { nd with prev := none, next := some f₀ }) f₀ { ndf₁ with prev := some p } x
            = heapSet (heapSet c.heap pv { ndpv with next := none }) f₀
                { ndf₁ with prev := some p } x := by
          intro x hx
          have hxp : ¬ x = p := fun he => hpNotFront (he ▸ hx)
          by_cases hxf : x = f₀
          · subst hxf; rw [heapSet_same, heapSet_same]
          · rw [heapSet_ne hxf, heapSet_ne hxp, heapSet_ne hxf]
        have hfrontNew := dlseg_frame hframe hstep2
        refine ⟨?_, hpermAddr.nodup hw.nodupAddrs, (hpermA.map Prod.fst).nodup hw.nodupKeys,
          fun q hq => hw.freshBound q (hpermAddr.mem_iff.mpr hq), hlenEqNew, ?_, hmapPermNew⟩
        · -- the rebuilt chain
          refine dlseg_cons.mpr ⟨rfl, { nd with prev := none, next := some f₀ }, ?_, rfl, ?_⟩
          · show heapSet (heapSet (heapSet c.heap pv { ndpv with next := none })
                p { nd with prev := none, next := some f₀ }) f₀ { ndf₁ with prev := some p } p
              = some { nd with prev := none, next := some f₀ }
            rw [heapSet_ne hpNotf₀, heapSet_same]
          · exact dlseg_append.mpr ⟨some pv, none, hfrontNew, dlseg_nil.mpr ⟨rfl, rfl⟩⟩
        · -- node keys
          intro pk hpk
          rw [hzipNew] at hpk
          rcases List.mem_cons.mp hpk with he | hm'
          · subst he
            obtain ⟨nd₀, hnd₀, hkey₀⟩ := hw.nodeKeys (p, kv) hpkvOld
            rw [hnd] at hnd₀
            injection hnd₀ with hnd₀; subst hnd₀
            refine ⟨{ nd with prev := none, next := some f₀ }, ?_, hkey₀⟩
            show heapSet (heapSet (heapSet c.heap pv { ndpv with next := none })
                p { nd with prev := none, next := some f₀ }) f₀ { ndf₁ with prev := some p } p
              = some { nd with prev := none, next := some f₀ }
            rw [heapSet_ne hpNotf₀, heapSet_same]
          · have hold : pk ∈ ((f₀ :: front₁) ++ p :: []).zip (A₁ ++ kv :: A₂) := by
              rw [hzipOld]
              rcases List.mem_append.mp hm' with h | h
              · exact List.mem_append_left _ h
              · exact List.mem_append_right _ (List.mem_cons_of_mem _ h)
            obtain ⟨nd₀, hnd₀, hkey₀⟩ := hw.nodeKeys pk hold
            obtain ⟨nd', hnd', hk', hv'⟩ := kvView_node hkvAll hnd₀
            exact ⟨nd', hnd', hk'.trans hkey₀⟩
      · -- key/value content of the heap is unchanged
        intro a
        have k1 := kvView_heapSet { ndpv with next := none } hndpv rfl rfl a
        have k2 := kvView_heapSet (h := heapSet c.heap pv { ndpv with next := none })
          { nd with prev := none, next := some f₀ }
          ((heapSet_ne hpNotpv).trans hnd) rfl rfl a
        have k3 := kvView_heapSet (h := heapSet (heapSet c.heap pv { ndpv with next := none })
            p { nd with prev := none, next := some f₀ })
          { ndf₁ with prev := some p }
          ((heapSet_ne hf₀NotP).trans hndf₁) rfl rfl a
        exact k3.trans (k2.trans k1)
    · -- `p` is an interior node: lines 118-119 splice, 125-133 relink
      obtain ⟨hnext, ndnx, hndnx, hndnxprev, hrest₂⟩ := dlseg_cons.mp hrest
      have hnxMemR : nx ∈ nx :: rest₂ := List.mem_cons_self _ _
      have hnxNotFront : nx ∉ f₀ :: front₁ := fun hm => hdisj hm (List.mem_cons_of_mem _ hnxMemR)
      have hpvNotNx : ¬ pv = nx := fun he => hnxNotFront (by rw [← he]; exact hpvMemF)
      have hf₀NotNx : ¬ f₀ = nx := fun he => hnxNotFront (by rw [← he]; exact hf₀MemF)
      have hpNotNx : ¬ p = nx := fun he => hpNotRest (by rw [he]; exact hnxMemR)
      have hnxNotR₂ : nx ∉ rest₂ := (List.nodup_cons.mp hndR).1
      have hA1f : ∃ ndf₁, heapSet c.heap pv { ndpv with next := some nx } f₀ = some ndf₁ := by
        by_cases hf : f₀ = pv
        · exact ⟨_, by rw [hf]; exact heapSet_same⟩
        · exact ⟨ndf, by rw [heapSet_ne hf]; exact hndf⟩
      obtain ⟨ndf₁, hndf₁⟩ := hA1f
      have hndf₁h2 : heapSet (heapSet c.heap nx { ndnx with prev := some pv }) pv
          { ndpv with next := some nx } f₀ = some ndf₁ := by
        by_cases hf : f₀ = pv
        · rw [hf] at hndf₁ ⊢
          rw [heapSet_same] at hndf₁ ⊢
          exact hndf₁
        · rw [heapSet_ne hf] at hndf₁
          rw [heapSet_ne hf, heapSet_ne hf₀NotNx]
          exact hndf₁
      refine ⟨{ c with
          heap := heapSet (heapSet (heapSet (heapSet c.heap nx { ndnx with prev := some pv })
            pv { ndpv with next := some nx }) p { nd with prev := none, next := some f₀ })
            f₀ { ndf₁ with prev := some p },
          head := some p }, ?_, ?_, rfl, rfl, rfl, rfl, ?_⟩
      · -- the computation of `move_to_front`
        simp only [LruCache.move_to_front, hnd, hprevpv, hnext, setPrev, setNext, hndnx,
          Option.map_some', Option.some_bind, hhead]
        rw [show heapSet c.heap nx { ndnx with prev := some pv } pv = some ndpv from
          (heapSet_ne hpvNotNx).trans hndpv]
        simp only [Option.map_some', Option.some_bind]
        rw [show heapSet (heapSet c.heap nx { ndnx with prev := some pv }) pv
            { ndpv with next := some nx } p = some nd from
          (heapSet_ne hpNotpv).trans ((heapSet_ne hpNotNx).trans hnd)]
        simp only [Option.some_bind]
        rw [show heapSet (heapSet (heapSet c.heap nx { ndnx with prev := some pv }) pv
            { ndpv with next := some nx }) p { nd with prev := none, next := some f₀ } f₀
            = some ndf₁ from (heapSet_ne hf₀NotP).trans hndf₁h2]
        rfl
      · -- the state relation after the move
        have hkvAll : ∀ a,
            kvView (heapSet (heapSet (heapSet (heapSet c.heap nx { ndnx with prev := some pv })
              pv { ndpv with next := some nx }) p { nd with prev := none, next := some f₀ })
              f₀ { ndf₁ with prev := some p }) a
            = kvView c.heap a := by
          intro a
          have k1 := kvView_heapSet { ndnx with prev := some pv } hndnx rfl rfl a
          have k2 := kvView_heapSet (h := heapSet c.heap nx { ndnx with prev := some pv })
            { ndpv with next := some nx }
            ((heapSet_ne hpvNotNx).trans hndpv) rfl rfl a
          have k3 := kvView_heapSet
            (h := heapSet (heapSet c.heap nx { ndnx with prev := some pv }) pv
              { ndpv with next := some nx })
            { nd with prev := none, next := some f₀ }
            ((heapSet_ne hpNotpv).trans ((heapSet_ne hpNotNx).trans hnd)) rfl rfl a
          have k4 := kvView_heapSet
            (h := heapSet (heapSet (heapSet c.heap nx { ndnx with prev := some pv }) pv
              { ndpv with next := some nx }) p { nd with prev := none, next := some f₀ })
            { ndf₁ with prev := some p }
            ((heapSet_ne hf₀NotP).trans hndf₁h2) rfl rfl a
          exact k4.trans (k3.trans (k2.trans k1))
        have hstep1 : dlseg (heapSet c.heap pv { ndpv with next := some nx }) (finit ++ [pv])
            none c.head m (some nx) :=
          dlseg_setNextLast hfrontC hpvNotFinit hndpv (some nx)
        rw [← hfv, hhead, hmpv] at hstep1
        have hstep2 := dlseg_setPrevHead hstep1 hf₀Not₁ hndf₁ (some p)
        have hframeF : ∀ x ∈ f₀ :: front₁,
            heapSet (heapSet (heapSet (heapSet c.heap nx { ndnx with prev := some pv })
              pv { ndpv with next := some nx }) p { nd with prev := none, next := some f₀ })
              f₀ { ndf₁ with prev := some p } x
            = heapSet (heapSet c.heap pv { ndpv with next := some nx }) f₀
                { ndf₁ with prev := some p } x := by
          intro x hx
          have hxp : ¬ x = p := fun he => hpNotFront (he ▸ hx)
          have hxnx : ¬ x = nx := fun he => hnxNotFront (he ▸ hx)
          by_cases hxf : x = f₀
          · subst hxf; rw [heapSet_same, heapSet_same]
          · rw [heapSet_ne hxf, heapSet_ne hxp, heapSet_ne hxf]
            by_cases hxpv : x = pv
            · subst hxpv; rw [heapSet_same, heapSet_same]
            · rw [heapSet_ne hxpv, heapSet_ne hxpv, heapSet_ne hxnx]
        have hfrontNew := dlseg_frame hframeF hstep2
        have hrest' : dlseg c.heap (nx :: rest₂) (some p) (some nx) c.tail none := by
          rw [← hnext]; exact hrest
        have hstepR := dlseg_setPrevHead hrest' hnxNotR₂ hndnx (some pv)
        have hframeR : ∀ x ∈ nx :: rest₂,
            heapSet (heapSet (heapSet (heapSet c.heap nx { ndnx with prev := some pv })
              pv { ndpv with next := some nx }) p { nd with prev := none, next := some f₀ })
              f₀ { ndf₁ with prev := some p } x
            = heapSet c.heap nx { ndnx with prev := some pv } x := by
          intro x hx
          have hxF : x ∉ f₀ :: front₁ := fun hm => hdisj hm (List.mem_cons_of_mem _ hx)
          have hxf₀ : ¬ x = f₀ := fun he => hxF (by rw [he]; exact hf₀MemF)
          have hxpv : ¬ x = pv := fun he => hxF (by rw [he]; exact hpvMemF)
          have hxp : ¬ x = p := fun he => hpNotRest (he ▸ hx)
          rw [heapSet_ne hxf₀, heapSet_ne hxp, heapSet_ne hxpv]
        have hrestNew := dlseg_frame hframeR hstepR
        refine ⟨?_, hpermAddr.nodup hw.nodupAddrs, (hpermA.map Prod.fst).nodup hw.nodupKeys,
          fun q hq => hw.freshBound q (hpermAddr.mem_iff.mpr hq), hlenEqNew, ?_, hmapPermNew⟩
        · refine dlseg_cons.mpr ⟨rfl, { nd with prev := none, next := some f₀ }, ?_, rfl, ?_⟩
          · show heapSet (heapSet (heapSet (heapSet c.heap nx { ndnx with prev := some pv })
                pv { ndpv with next := some nx }) p { nd with prev := none, next := some f₀ })
                f₀ { ndf₁ with prev := some p } p
              = some { nd with prev := none, next := some f₀ }
            rw [heapSet_ne hpNotf₀, heapSet_same]
          · exact dlseg_append.mpr ⟨some pv, some nx, hfrontNew, hrestNew⟩
        · intro pk hpk
          rw [hzipNew] at hpk
          rcases List.mem_cons.mp hpk with he | hm'
          · subst he
            obtain ⟨nd₀, hnd₀, hkey₀⟩ := hw.nodeKeys (p, kv) hpkvOld
            rw [hnd] at hnd₀
            injection hnd₀ with hnd₀; subst hnd₀
            refine ⟨{ nd with prev := none, next := some f₀ }, ?_, hkey₀⟩
            show heapSet (heapSet (heapSet (heapSet c.heap nx { ndnx with prev := some pv })
                pv { ndpv with next := some nx }) p { nd with prev := none, next := some f₀ })
                f₀ { ndf₁ with prev := some p } p
              = some { nd with prev := none, next := some f₀ }
            rw [heapSet_ne hpNotf₀, heapSet_same]
          · have hold : pk ∈ ((f₀ :: front₁) ++ p :: nx :: rest₂).zip (A₁ ++ kv :: A₂) := by
              rw [hzipOld]
              rcases List.mem_append.mp hm' with h | h
              · exact List.mem_append_left _ h
              · exact List.mem_append_right _ (List.mem_cons_of_mem _ h)
            obtain ⟨nd₀, hnd₀, hkey₀⟩ := hw.nodeKeys pk hold
            obtain ⟨nd', hnd', hk', hv'⟩ := kvView_node hkvAll hnd₀
            exact ⟨nd', hnd', hk'.trans hkey₀⟩
      · -- key/value content of the heap is unchanged
        intro a
        have k1 := kvView_heapSet { ndnx with prev := some pv } hndnx rfl rfl a
        have k2 := kvView_heapSet (h := heapSet c.heap nx { ndnx with prev := some pv })
          { ndpv with next := some nx }
          ((heapSet_ne hpvNotNx).trans hndpv) rfl rfl a
        have k3 := kvView_heapSet
          (h := heapSet (heapSet c.heap nx { ndnx with prev := some pv }) pv
            { ndpv with next := some nx })
          { nd with prev := none, next := some f₀ }
          ((heapSet_ne hpNotpv).trans ((heapSet_ne hpNotNx).trans hnd)) rfl rfl a
        have k4 := kvView_heapSet
          (h := heapSet (heapSet (heapSet c.heap nx { ndnx with prev := some pv }) pv
            { ndpv with next := some nx }) p { nd with prev := none, next := some f₀ })
          { ndf₁ with prev := some p }
          ((heapSet_ne hf₀NotP).trans hndf₁h2) rfl rfl a
        exact k4.trans (k3.trans (k2.trans k1))

/-! ## Further simulation lemmas -/

theorem dlseg_congr {h h' : Heap K V} :
    ∀ {l : List Nat} {pa a z nz : Option Nat},
      (∀ x ∈ l, Option.map (fun nd => (nd.prev, nd.next)) (h' x)
        = Option.map (fun nd => (nd.prev, nd.next)) (h x)) →
      dlseg h l pa a z nz → dlseg h' l pa a z nz
  | [], _, _, _, _, _, hseg => hseg
  | x :: xs, _, _, _, _, hagree, hseg => by
    obtain ⟨ha, nd, hnd, hprev, hrest⟩ := hseg
    have he := hagree x (by simp)
    rw [hnd] at he
    rcases h'x : h' x with - | nd'
    · rw [h'x] at he; simp at he
    · rw [h'x] at he
      simp only [Option.map_some', Option.some.injEq, Prod.mk.injEq] at he
      refine ⟨ha, nd', h'x, he.1.trans hprev, ?_⟩
      rw [he.2]
      exact dlseg_congr (fun y hy => hagree y (by simp [hy])) hrest

theorem RelW.setValue {c : LruCache K V} {A : List (K × V)} {addrs : List Nat}
    (hw : RelW c A addrs) {p : Nat} {nd : LruNode K V} (hnd : c.heap p = some nd) (v : V) :
    RelW { c with heap := heapSet c.heap p { nd with value := v } } A addrs := by
  refine ⟨?_, hw.nodupAddrs, hw.nodupKeys, hw.freshBound, hw.lenEq, ?_, hw.mapPerm⟩
  · refine dlseg_congr (fun x hx => ?_) hw.chain
    show Option.map _ (heapSet c.heap p { nd with value := v } x) = _
    by_cases hxp : x = p
    · subst hxp; rw [heapSet_same, hnd]; rfl
    · rw [heapSet_ne hxp]
  · intro pk hpk
    obtain ⟨nd₀, hnd₀, hkey⟩ := hw.nodeKeys pk hpk
    by_cases hxp : pk.1 = p
    · refine ⟨{ nd with value := v }, ?_, ?_⟩
      · show heapSet c.heap p { nd with value := v } pk.1 = _
        rw [hxp]; exact heapSet_same
      · rw [hxp, hnd] at hnd₀
        injection hnd₀ with h
        subst h
        exact hkey
    · refine ⟨nd₀, ?_, hkey⟩
      show heapSet c.heap p { nd with value := v } pk.1 = _
      rw [heapSet_ne hxp]; exact hnd₀

theorem relW_new (cap : Nat) : RelW (LruCache.new cap : LruCache K V) [] [] := by
  refine ⟨⟨rfl, rfl⟩, List.nodup_nil, by simp, by simp, rfl, by simp, by simp [LruCache.new]⟩

theorem rel_new (cap : Nat) : Rel (LruCache.new cap : LruCache K V) [] :=
  ⟨[], relW_new cap⟩

theorem split_at_length {α : Type} :
    ∀ (l : List α) (n : Nat), n < l.length →
      ∃ l₁ x l₂, l = l₁ ++ x :: l₂ ∧ l₁.length = n
  | [], _, h => absurd h (by simp)
  | x :: xs, 0, _ => ⟨[], x, xs, rfl, rfl⟩
  | x :: xs, n + 1, h => by
    obtain ⟨l₁, y, l₂, he, hl⟩ := split_at_length xs n (by simpa using h)
    exact ⟨x :: l₁, y, l₂, by rw [List.cons_append, ← he], by simp [hl]⟩

/-- `get` on a missing key: no side effects at all (lines 50-54, 63-65). -/
theorem get_miss {c : LruCache K V} {k : K} (hl : mapLookup c.map k = none) :
    c.get k = some (none, c) := by
  simp [LruCache.get, hl]

/-- `get` on a present key returns the map's copy of the value and promotes
the entry to the front; the map itself is untouched. -/
theorem get_hit {c : LruCache K V} {A₁ A₂ : List (K × V)} {k : K} {v : V}
    (hr : Rel c (A₁ ++ (k, v) :: A₂)) :
    ∃ c', c.get k = some (some v, c') ∧ Rel c' ((k, v) :: (A₁ ++ A₂)) ∧
      c'.map = c.map ∧ c'.capacity = c.capacity ∧ c'.fresh = c.fresh ∧
      (∀ a, kvView c'.heap a = kvView c.heap a) := by
  obtain ⟨addrs, hw⟩ := hr
  have hlt : A₁.length < addrs.length := by
    rw [hw.lenEq, List.length_append, List.length_cons]
    omega
  obtain ⟨front, p, rest, haddrs, hflen⟩ := split_at_length addrs A₁.length hlt
  rw [haddrs] at hw
  have hzip : (p, (k, v)) ∈ (front ++ p :: rest).zip (A₁ ++ (k, v) :: A₂) := by
    rw [zip_middle _ _ _ _ _ _ hflen]
    exact List.mem_append_right _ (List.mem_cons_self _ _)
  have hlook : mapLookup c.map k = some (v, p) := hw.lookup_iff.mpr hzip
  obtain ⟨c', hmv, hw', hmap, hcap, hfresh, hhead, hkv⟩ := move_spec hw hflen
  refine ⟨c', ?_, ⟨_, hw'⟩, hmap, hcap, hfresh, hkv⟩
  simp only [LruCache.get, hlook, hmv, Option.map_some', hmap]

/-- `put` on an existing key: overwrites only the node's copy of the value
(line 79) and promotes; the map — which `get` reads — keeps the old value. -/
theorem put_hit {c : LruCache K V} {A₁ A₂ : List (K × V)} {k : K} {v₀ : V}
    (hr : Rel c (A₁ ++ (k, v₀) :: A₂)) (v : V) :
    ∃ c' p, c.put k v = some c' ∧ mapLookup c.map k = some (v₀, p) ∧
      Rel c' ((k, v₀) :: (A₁ ++ A₂)) ∧ c'.map = c.map ∧ c'.capacity = c.capacity ∧
      c'.fresh = c.fresh ∧ (∀ a, ¬ a = p → kvView c'.heap a = kvView c.heap a) := by
  obtain ⟨addrs, hw⟩ := hr
  have hlt : A₁.length < addrs.length := by
    rw [hw.lenEq, List.length_append, List.length_cons]
    omega
  obtain ⟨front, p, rest, haddrs, hflen⟩ := split_at_length addrs A₁.length hlt
  rw [haddrs] at hw
  have hzip : (p, (k, v₀)) ∈ (front ++ p :: rest).zip (A₁ ++ (k, v₀) :: A₂) := by
    rw [zip_middle _ _ _ _ _ _ hflen]
    exact List.mem_append_right _ (List.mem_cons_self _ _)
  have hlook : mapLookup c.map k = some (v₀, p) := hw.lookup_iff.mpr hzip
  obtain ⟨nd, hnd⟩ := dlseg_mem hw.chain p
    (List.mem_append_right _ (List.mem_cons_self _ _))
  have hw₁ := hw.setValue hnd v
  obtain ⟨c', hmv, hw', hmap, hcap, hfresh, hhead, hkv⟩ := move_spec hw₁ hflen
  refine ⟨c', p, ?_, hlook, ⟨_, hw'⟩, hmap, hcap, hfresh, ?_⟩
  · simp only [LruCache.put, hlook, hnd, Option.some_bind]
    exact hmv
  · intro a ha
    refine (hkv a).trans ?_
    show Option.map _ (heapSet c.heap p { nd with value := v } a) = _
    rw [heapSet_ne ha]
    rfl

/-!
## Simulation: eviction and insertion
-/

/-- `evict_lru` on a cache holding `A ++ [(kt, vt)]` removes exactly the tail
entry `(kt, vt)` (lines 137-155). -/
theorem evict_spec {c : LruCache K V} {A : List (K × V)} {kt : K} {vt : V} {addrs : List Nat}
    (hw : RelW c (A ++ [(kt, vt)]) addrs) :
    ∃ c', c.evict_lru = some c' ∧ Rel c' A ∧ c'.map = mapRemove c.map kt ∧
      c'.capacity = c.capacity ∧ c'.fresh = c.fresh := by
  have hlt : A.length < addrs.length := by
    rw [hw.lenEq, List.length_append]
    simp
  obtain ⟨init, z, rest, haddrs, hilen⟩ := split_at_length addrs A.length hlt
  have hrest : rest = [] := by
    have hlen := hw.lenEq
    rw [haddrs] at hlen
    rw [← List.length_eq_zero]
    simp [List.length_append] at hlen
    omega
  subst hrest
  rw [haddrs] at hw
  obtain ⟨m, b, hinit, hzseg⟩ := dlseg_append.mp hw.chain
  obtain ⟨hb, htail, ndz, hndz, hndzprev, hndznext⟩ := dlseg_singleton.mp hzseg
  have hzzip : (z, (kt, vt)) ∈ (init ++ z :: []).zip (A ++ (kt, vt) :: []) := by
    rw [zip_middle init [] A [] z (kt, vt) hilen]
    exact List.mem_append_right _ (List.mem_cons_self _ _)
  obtain ⟨ndz', hndz', hkeyz⟩ := hw.nodeKeys (z, (kt, vt)) hzzip
  rw [hndz] at hndz'
  injection hndz' with he
  subst he
  have hndA := hw.nodupAddrs
  rw [List.nodup_append] at hndA
  have hKnd := hw.nodupKeys
  rw [List.map_append, List.nodup_append] at hKnd
  have hktNotA : kt ∉ A.map Prod.fst := fun hm => hKnd.2.2 hm (by simp)
  have hmapR : (mapRemove c.map kt).Perm
      ((init.zip A).map fun pk => (pk.2.1, pk.2.2, pk.1)) := by
    have h1 := hw.mapPerm.filter (fun e => decide (e.1 ≠ kt))
    have hzipfull : ((init ++ z :: []).zip (A ++ (kt, vt) :: [])).map
        (fun pk => (pk.2.1, pk.2.2, pk.1))
        = ((init.zip A).map fun pk => (pk.2.1, pk.2.2, pk.1)) ++ [(kt, vt, z)] := by
      rw [zip_middle init [] A [] z (kt, vt) hilen]
      simp
    rw [hzipfull, List.filter_append] at h1
    have hfl : List.filter (fun e => decide (e.1 ≠ kt))
        ((init.zip A).map fun pk => (pk.2.1, pk.2.2, pk.1))
        = (init.zip A).map fun pk => (pk.2.1, pk.2.2, pk.1) := by
      apply List.filter_eq_self.mpr
      intro e he
      obtain ⟨pk, hpk, hepk⟩ := List.mem_map.mp he
      have hkA : pk.2.1 ∈ A.map Prod.fst :=
        List.mem_map.mpr ⟨pk.2, (List.mem_zip hpk).2, rfl⟩
      rw [← hepk]
      simp only [ne_eq, decide_not, Bool.not_eq_true', decide_eq_false_iff_not]
      exact fun heq => hktNotA (heq ▸ hkA)
    have hfr : List.filter (fun e => decide (e.1 ≠ kt)) [(kt, vt, z)] = [] := by simp
    rw [hfl, hfr, List.append_nil] at h1
    exact h1
  rcases List.eq_nil_or_concat init with hinitnil | ⟨init', pv, hinitC⟩
  · -- single node (lines 146-149)
    subst hinitnil
    obtain ⟨hheadz, hmnone⟩ := dlseg_nil.mp hinit
    have hAnil : A = [] := by
      rw [← List.length_eq_zero]
      simpa using hilen.symm
    subst hAnil
    refine ⟨{ c with map := mapRemove c.map kt, head := none, tail := none },
      ?_, ⟨[], ?_⟩, rfl, rfl, rfl⟩
    · simp only [LruCache.evict_lru, htail, hndz, Option.some_bind,
        hndzprev.trans hmnone, hkeyz]
    · refine ⟨⟨rfl, rfl⟩, List.nodup_nil, by simp, by simp, rfl, by simp, ?_⟩
      show (mapRemove c.map kt).Perm _
      simpa using hmapR
  · -- at least two nodes (lines 150-153)
    rw [List.concat_eq_append] at hinitC
    rw [hinitC] at hinit
    obtain ⟨m₁, b₁, hinit', hpvseg⟩ := dlseg_append.mp hinit
    obtain ⟨hb₁, hmpv, ndpv, hndpv, hndpvprev, hndpvnext⟩ := dlseg_singleton.mp hpvseg
    have hpvNotInit' : pv ∉ init' := by
      have hnd : (init' ++ [pv]).Nodup := hinitC ▸ hndA.1
      rw [List.nodup_append] at hnd
      exact fun hm => hnd.2.2 hm (by simp)
    have hprevpv : ndz.prev = some pv := hndzprev.trans hmpv
    refine ⟨{ c with
        map := mapRemove c.map kt, tail := some pv,
        heap := heapSet c.heap pv { ndpv with next := none } }, ?_, ?_, rfl, rfl, rfl⟩
    · simp only [LruCache.evict_lru, htail, hndz, Option.some_bind, hprevpv,
        setNext, hndpv, Option.map_some', hkeyz]
    · refine ⟨init, ?_⟩
      have hkvE : ∀ a, kvView (heapSet c.heap pv { ndpv with next := none }) a
          = kvView c.heap a := kvView_heapSet { ndpv with next := none } hndpv rfl rfl
      have hchain' : dlseg (heapSet c.heap pv { ndpv with next := none }) init
          none c.head (some pv) none := by
        rw [hinitC]
        exact hmpv ▸ dlseg_setNextLast hinit hpvNotInit' hndpv none
      refine ⟨hchain', hndA.1, hKnd.1,
        fun q hq => hw.freshBound q (List.mem_append_left _ hq),
        hilen, ?_, hmapR⟩
      intro pk hpk
      have hold : pk ∈ (init ++ z :: []).zip (A ++ (kt, vt) :: []) := by
        rw [zip_middle init [] A [] z (kt, vt) hilen]
        exact List.mem_append_left _ hpk
      obtain ⟨nd₀, hnd₀, hkey₀⟩ := hw.nodeKeys pk hold
      obtain ⟨nd', hnd', hk', hv'⟩ := kvView_node hkvE hnd₀
      exact ⟨nd', hnd', hk'.trans hkey₀⟩

/-- The next eviction candidate (`(*self.tail).key`) is the last entry of the
abstraction. -/
theorem RelW.tailKey_last {c : LruCache K V} {A : List (K × V)} {kt : K} {vt : V}
    {addrs : List Nat} (hw : RelW c (A ++ [(kt, vt)]) addrs) : c.tailKey = some kt := by
  have hlt : A.length < addrs.length := by
    rw [hw.lenEq, List.length_append]
    simp
  obtain ⟨init, z, rest, haddrs, hilen⟩ := split_at_length addrs A.length hlt
  have hrest : rest = [] := by
    have hlen := hw.lenEq
    rw [haddrs] at hlen
    rw [← List.length_eq_zero]
    simp [List.length_append] at hlen
    omega
  subst hrest
  rw [haddrs] at hw
  obtain ⟨m, b, hinit, hzseg⟩ := dlseg_append.mp hw.chain
  obtain ⟨hb, htail, ndz, hndz, hndzprev, hndznext⟩ := dlseg_singleton.mp hzseg
  have hzzip : (z, (kt, vt)) ∈ (init ++ z :: []).zip (A ++ (kt, vt) :: []) := by
    rw [zip_middle init [] A [] z (kt, vt) hilen]
    exact List.mem_append_right _ (List.mem_cons_self _ _)
  obtain ⟨ndz', hndz', hkeyz⟩ := hw.nodeKeys (z, (kt, vt)) hzzip
  rw [hndz] at hndz'
  injection hndz' with he
  subst he
  simp [LruCache.tailKey, htail, hndz, hkeyz]

/-- `put` on a new key, up to the eviction check: the entry is linked at the
front and bound in the map (lines 82-101); the final result is the eviction
check of lines 103-106 applied to that intermediate state. -/
theorem put_new_spec {c : LruCache K V} {A : List (K × V)} {addrs : List Nat}
    (hw : RelW c A addrs) {k : K} (hk : mapLookup c.map k = none) (v : V) :
    ∃ c₂, RelW c₂ ((k, v) :: A) (c.fresh :: addrs) ∧
      c₂.map = (k, (v, c.fresh)) :: c.map ∧ c₂.capacity = c.capacity ∧
      c₂.fresh = c.fresh + 1 ∧
      (∀ a, ¬ a = c.fresh → kvView c₂.heap a = kvView c.heap a) ∧
      c.put k v = (if c₂.map.length > c₂.capacity then c₂.evict_lru else some c₂) := by
  have hknotA : k ∉ A.map Prod.fst := hw.lookup_none_iff.mp hk
  have hfrNot : c.fresh ∉ addrs := fun hm => Nat.lt_irrefl _ (hw.freshBound _ hm)
  have hmlen : c.map.length = A.length := hw.len_eq
  rcases haddrs : addrs with - | ⟨a₀, addrs₁⟩
  · -- the cache is empty: lines 86-89
    rw [haddrs] at hw
    have hAnil : A = [] := by
      rw [← List.length_eq_zero]
      simpa using hw.lenEq.symm
    subst hAnil
    have hlen0 : c.map.length = 0 := hmlen
    refine ⟨{ c with
        heap := heapSet c.heap c.fresh (LruNode.new k v), tail := some c.fresh,
        head := some c.fresh, fresh := c.fresh + 1,
        map := (k, (v, c.fresh)) :: c.map }, ?_, rfl, rfl, rfl, ?_, ?_⟩
    · refine ⟨?_, by simp, by simp, ?_, by simp, ?_, ?_⟩
      · exact dlseg_cons.mpr ⟨rfl, LruNode.new k v, heapSet_same, rfl,
          dlseg_nil.mpr ⟨rfl, rfl⟩⟩
      · intro q hq
        have hq' : q = c.fresh := by simpa using hq
        subst hq'
        exact Nat.lt_succ_self _
      · intro pk hpk
        have hpk' : pk = (c.fresh, (k, v)) := by simpa using hpk
        rw [hpk']
        exact ⟨LruNode.new k v, heapSet_same, rfl⟩
      · have hmnil : c.map = [] := List.length_eq_zero.mp hlen0
        rw [hmnil]
        simp
    · intro a ha
      show Option.map _ (heapSet c.heap c.fresh _ a) = _
      rw [heapSet_ne ha]
      rfl
    · simp only [LruCache.put, hk, hlen0, eq_self_iff_true, if_true,
        LruCache.finishInsert, mapInsert_of_not_mem hk]
  · -- nonempty cache: lines 90-97
    rw [haddrs] at hw
    obtain ⟨hhead, nda₀, hnda₀, hnda₀prev, hrest⟩ := dlseg_cons.mp hw.chain
    have ha₀fr : ¬ a₀ = c.fresh := fun he =>
      hfrNot (by rw [haddrs, ← he]; exact List.mem_cons_self _ _)
    have hfra₀ : ¬ c.fresh = a₀ := fun he => ha₀fr he.symm
    have ha₀Not₁ : a₀ ∉ addrs₁ := by
      have := hw.nodupAddrs
      exact (List.nodup_cons.mp this).1
    have hlenNe : ¬ c.map.length = 0 := by
      rw [hmlen]
      have := hw.lenEq
      simp only [List.length_cons] at this
      omega
    refine ⟨{ c with
        heap := heapSet (heapSet c.heap c.fresh
            { LruNode.new k v with next := some a₀ }) a₀ { nda₀ with prev := some c.fresh },
        head := some c.fresh, fresh := c.fresh + 1,
        map := (k, (v, c.fresh)) :: c.map }, ?_, rfl, rfl, rfl, ?_, ?_⟩
    · have hkvE : ∀ a, ¬ a = c.fresh →
          kvView (heapSet (heapSet c.heap c.fresh { LruNode.new k v with next := some a₀ })
            a₀ { nda₀ with prev := some c.fresh }) a = kvView c.heap a := by
        intro a ha
        have k2 := kvView_heapSet
          (h := heapSet c.heap c.fresh { LruNode.new k v with next := some a₀ })
          { nda₀ with prev := some c.fresh }
          ((heapSet_ne ha₀fr).trans hnda₀) rfl rfl a
        refine k2.trans ?_
        show Option.map _ (heapSet c.heap c.fresh _ a) = _
        rw [heapSet_ne ha]
        rfl
      refine ⟨?_, ?_, by rw [List.map_cons, List.nodup_cons]; exact ⟨hknotA, hw.nodupKeys⟩,
        ?_, by simpa using hw.lenEq, ?_, ?_⟩
      · refine dlseg_cons.mpr ⟨rfl, { LruNode.new k v with next := some a₀ }, ?_, rfl, ?_⟩
        · show heapSet (heapSet c.heap c.fresh { LruNode.new k v with next := some a₀ })
              a₀ { nda₀ with prev := some c.fresh } c.fresh = _
          rw [heapSet_ne hfra₀]
          exact heapSet_same
        · have hstep := dlseg_setPrevHead (hhead ▸ hw.chain) ha₀Not₁ hnda₀ (some c.fresh)
          refine dlseg_frame (fun x hx => ?_) hstep
          have hxfr : ¬ x = c.fresh := fun he => hfrNot (by rw [haddrs, ← he]; exact hx)
          show heapSet (heapSet c.heap c.fresh { LruNode.new k v with next := some a₀ })
              a₀ { nda₀ with prev := some c.fresh } x = _
          by_cases hxa : x = a₀
          · subst hxa
            rw [heapSet_same, heapSet_same]
          · rw [heapSet_ne hxa, heapSet_ne hxfr, heapSet_ne hxa]
      · rw [List.nodup_cons]
        exact ⟨by rw [haddrs] at hfrNot; exact hfrNot, hw.nodupAddrs⟩
      · intro q hq
        rcases List.mem_cons.mp hq with he | hm
        · subst he
          exact Nat.lt_succ_self _
        · exact Nat.lt_succ_of_lt (hw.freshBound q hm)
      · intro pk hpk
        rw [List.zip_cons_cons] at hpk
        rcases List.mem_cons.mp hpk with he | hm
        · rw [he]
          refine ⟨{ LruNode.new k v with next := some a₀ }, ?_, rfl⟩
          show heapSet (heapSet c.heap c.fresh { LruNode.new k v with next := some a₀ })
              a₀ { nda₀ with prev := some c.fresh } c.fresh = _
          rw [heapSet_ne hfra₀]
          exact heapSet_same
        · obtain ⟨nd₀, hnd₀, hkey₀⟩ := hw.nodeKeys pk hm
          have hpkfr : ¬ pk.1 = c.fresh := fun he =>
            hfrNot (by rw [haddrs, ← he]; exact (List.mem_zip hm).1)
          obtain ⟨nd', hnd', hk', hv'⟩ := kvView_node_at (hkvE pk.1 hpkfr) hnd₀
          exact ⟨nd', hnd', hk'.trans hkey₀⟩
      · exact List.Perm.cons _ hw.mapPerm
    · intro a ha
      have k2 := kvView_heapSet
        (h := heapSet c.heap c.fresh { LruNode.new k v with next := some a₀ })
        { nda₀ with prev := some c.fresh }
        ((heapSet_ne ha₀fr).trans hnda₀) rfl rfl a
      refine k2.trans ?_
      show Option.map _ (heapSet c.heap c.fresh _ a) = _
      rw [heapSet_ne ha]
      rfl
    · simp only [LruCache.put, hk]
      rw [if_neg hlenNe]
      simp only [hhead, Option.some_bind, setPrev]
      rw [show heapSet c.heap c.fresh { LruNode.new k v with next := some a₀ } a₀
        = some nda₀ from (heapSet_ne ha₀fr).trans hnda₀]
      simp only [Option.map_some', Option.some_bind, LruCache.finishInsert,
        mapInsert_of_not_mem hk]

/-- `put` of a new key that fits: the entry is added at the front and no
eviction happens. -/
theorem put_new_fits {c : LruCache K V} {A : List (K × V)} (hr : Rel c A) {k : K}
    (hk : mapLookup c.map k = none) (hfit : A.length + 1 ≤ c.capacity) (v : V) :
    ∃ c', c.put k v = some c' ∧ Rel c' ((k, v) :: A) ∧
      c'.map = (k, (v, c.fresh)) :: c.map ∧ c'.capacity = c.capacity := by
  obtain ⟨addrs, hw⟩ := hr
  obtain ⟨c₂, hw₂, hmap₂, hcap₂, hfresh₂, hkv₂, hput⟩ := put_new_spec hw hk v
  have hml : c.map.length = A.length := hw.len_eq
  have hcond : ¬ c₂.map.length > c₂.capacity := by
    rw [hmap₂, hcap₂, List.length_cons]
    omega
  rw [hput, if_neg hcond]
  exact ⟨c₂, rfl, ⟨_, hw₂⟩, hmap₂, hcap₂⟩

/-- `put` of a new key into a full (or over-full) cache: the entry is added
at the front and the tail entry is evicted in the same call. -/
theorem put_new_evict {c : LruCache K V} {A : List (K × V)}
    (hr : Rel c A) {k : K} (hk : mapLookup c.map k = none) {v : V}
    (hover : c.capacity < A.length + 1) (B : List (K × V)) (kt : K) (vt : V)
    (hconcat : (k, v) :: A = B ++ [(kt, vt)]) :
    ∃ c', c.put k v = some c' ∧ Rel c' B ∧
      c'.map = mapRemove ((k, (v, c.fresh)) :: c.map) kt ∧ c'.capacity = c.capacity := by
  obtain ⟨addrs, hw⟩ := hr
  obtain ⟨c₂, hw₂, hmap₂, hcap₂, hfresh₂, hkv₂, hput⟩ := put_new_spec hw hk v
  have hml : c.map.length = A.length := hw.len_eq
  have hcond : c₂.map.length > c₂.capacity := by
    rw [hmap₂, hcap₂, List.length_cons]
    omega
  rw [hput, if_pos hcond]
  rw [hconcat] at hw₂
  obtain ⟨c', hev, hrel', hmap', hcap', hfresh'⟩ := evict_spec hw₂
  exact ⟨c', hev, hrel', by rw [hmap', hmap₂], hcap'.trans hcap₂⟩

/-!
## Reachable states
-/

/-- Cache states reachable from a constructor call through the public
operations. -/
inductive Reach : LruCache K V → Prop
  | new (cap : Nat) : Reach (LruCache.new cap)
  | put {c c' : LruCache K V} {k : K} {v : V} :
      Reach c → c.put k v = some c' → Reach c'
  | get {c c' : LruCache K V} {k : K} {r : Option V} :
      Reach c → c.get k = some (r, c') → Reach c'

/-- Every state reachable from a put that succeeds, with invariant data. -/
theorem put_total {c : LruCache K V} {A : List (K × V)} (hr : Rel c A)
    (hle : A.length ≤ c.capacity) (k : K) (v : V) :
    ∃ c' A', c.put k v = some c' ∧ Rel c' A' ∧ A'.length ≤ c'.capacity ∧
      c'.capacity = c.capacity := by
  rcases hl : mapLookup c.map k with - | vp
  · -- new key
    by_cases hfit : A.length + 1 ≤ c.capacity
    · obtain ⟨c', hput, hrel, hmap, hcap⟩ := put_new_fits hr hl hfit v
      exact ⟨c', (k, v) :: A, hput, hrel, by rw [hcap]; simpa using hfit, hcap⟩
    · have hover : c.capacity < A.length + 1 := by omega
      rcases List.eq_nil_or_concat A with hAnil | ⟨A₀, kvt, hAC⟩
      · subst hAnil
        obtain ⟨c', hput, hrel, hmap, hcap⟩ := put_new_evict hr hl hover [] k v rfl
        exact ⟨c', [], hput, hrel, by simp, hcap⟩
      · obtain ⟨kt, vt⟩ := kvt
        rw [List.concat_eq_append] at hAC
        obtain ⟨c', hput, hrel, hmap, hcap⟩ := put_new_evict hr hl hover
          ((k, v) :: A₀) kt vt (by rw [hAC]; rfl)
        refine ⟨c', (k, v) :: A₀, hput, hrel, ?_, hcap⟩
        rw [hcap, List.length_cons]
        have : A.length = A₀.length + 1 := by rw [hAC]; simp
        omega
  · -- existing key
    obtain ⟨v₀, p⟩ := vp
    obtain ⟨addrs, hw⟩ := id hr
    obtain ⟨front, rest, A₁, A₂, haddrs, hA, hflen⟩ := hw.hit_split hl
    rw [hA] at hr
    obtain ⟨c', p', hput, hlook', hrel, hmap, hcap, hfresh, hkv⟩ := put_hit hr v
    refine ⟨c', (k, v₀) :: (A₁ ++ A₂), hput, hrel, ?_, hcap⟩
    rw [hcap]
    rw [hA] at hle
    simpa using hle

theorem get_total {c : LruCache K V} {A : List (K × V)} (hr : Rel c A) (k : K) :
    ∃ r c' A', c.get k = some (r, c') ∧ Rel c' A' ∧ A'.length = A.length ∧
      c'.capacity = c.capacity := by
  rcases hl : mapLookup c.map k with - | vp
  · exact ⟨none, c, A, get_miss hl, hr, rfl, rfl⟩
  · obtain ⟨v, p⟩ := vp
    obtain ⟨addrs, hw⟩ := id hr
    obtain ⟨front, rest, A₁, A₂, haddrs, hA, hflen⟩ := hw.hit_split hl
    rw [hA] at hr
    obtain ⟨c', hget, hrel, hmap, hcap, hfresh, hkv⟩ := get_hit hr
    refine ⟨some v, c', (k, v) :: (A₁ ++ A₂), hget, hrel, ?_, hcap⟩
    rw [hA]
    simp
    omega

/-- Master invariant: every reachable state is a well-formed LRU cache over
some abstraction `A` whose size respects the capacity. -/
theorem reach_spec {c : LruCache K V} (h : Reach c) :
    ∃ A, Rel c A ∧ A.length ≤ c.capacity := by
  induction h with
  | new cap => exact ⟨[], rel_new cap, by simp⟩
  | put hc hput ih =>
    obtain ⟨A, hr, hle⟩ := ih
    obtain ⟨c', A', hput', hrel, hle', hcap⟩ := put_total hr hle _ _
    rw [hput'] at hput
    injection hput with hput
    subst hput
    exact ⟨A', hrel, hle'⟩
  | get hc hget ih =>
    obtain ⟨A, hr, hle⟩ := ih
    obtain ⟨r, c', A', hget', hrel, hlen, hcap⟩ := get_total hr _
    rw [hget'] at hget
    injection hget with hget
    have h2 := congrArg Prod.snd hget
    simp only at h2
    subst h2
    rw [hcap]
    exact ⟨A', hrel, hlen ▸ hle⟩

/-! ## Sequences of puts -/

/-- Run a list of `put` calls in order. -/
def runPuts (c : LruCache K V) : List (K × V) → Option (LruCache K V)
  | [] => some c
  | (k, v) :: rest => (c.put k v).bind fun c' => runPuts c' rest

/-- Folding `capacity + 1 - accA.length` fresh distinct keys into a cache
holding `accA`: every put but the last fits, and the last one evicts the
oldest entry. -/
theorem runPuts_spec :
    ∀ (kvs : List (K × V)) {c : LruCache K V} {accA : List (K × V)},
      Rel c accA → accA.length ≤ c.capacity →
      accA.length + kvs.length = c.capacity + 1 →
      (accA.map Prod.fst ++ kvs.map Prod.fst).Nodup →
      ∃ c', runPuts c kvs = some c' ∧ Rel c' ((kvs.reverse ++ accA).dropLast) ∧
        c'.capacity = c.capacity := by
  intro kvs
  induction kvs with
  | nil =>
    intro c accA hr hle hsum hnd
    simp only [List.length_nil] at hsum
    omega
  | cons kv rest ih =>
    obtain ⟨k, v⟩ := kv
    intro c accA hr hle hsum hnd
    have hknot : k ∉ accA.map Prod.fst := by
      rw [List.map_cons, List.nodup_append] at hnd
      exact fun hm => hnd.2.2 hm (List.mem_cons_self _ _)
    have hk : mapLookup c.map k = none := by
      obtain ⟨addrs, hw⟩ := id hr
      exact hw.lookup_none_iff.mpr hknot
    rcases rest with - | ⟨kv₂, rest₂⟩
    · -- the final, overflowing put
      have hover : c.capacity < accA.length + 1 := by
        simp only [List.length_cons, List.length_nil] at hsum
        omega
      rcases List.eq_nil_or_concat ((k, v) :: accA) with hnil | ⟨B, kvt, hC⟩
      · simp at hnil
      obtain ⟨kt, vt⟩ := kvt
      rw [List.concat_eq_append] at hC
      obtain ⟨c', hput, hrel, hmap, hcap⟩ := put_new_evict hr hk hover B kt vt hC
      refine ⟨c', ?_, ?_, hcap⟩
      · simp [runPuts, hput]
      · have hd : (((k, v) :: []).reverse ++ accA).dropLast = B := by
          rw [show ((k, v) :: []).reverse ++ accA = (k, v) :: accA by simp, hC,
            List.dropLast_concat]
        rw [hd]
        exact hrel
    · -- an intermediate put that fits
      have hfit : accA.length + 1 ≤ c.capacity := by
        simp only [List.length_cons] at hsum
        omega
      obtain ⟨c₁, hput, hrel₁, hmap₁, hcap₁⟩ := put_new_fits hr hk hfit v
      have hnd' : (((k, v) :: accA).map Prod.fst ++ (kv₂ :: rest₂).map Prod.fst).Nodup := by
        rw [List.map_cons] at hnd ⊢
        have hperm : (accA.map Prod.fst ++ k :: (kv₂ :: rest₂).map Prod.fst).Perm
            (k :: (accA.map Prod.fst ++ (kv₂ :: rest₂).map Prod.fst)) := List.perm_middle
        exact hperm.nodup hnd
      obtain ⟨c', hrun, hrel', hcap'⟩ := ih hrel₁
        (by rw [hcap₁, List.length_cons]; exact hfit)
        (by rw [hcap₁]; simp only [List.length_cons] at hsum ⊢; omega)
        hnd'
      refine ⟨c', ?_, ?_, hcap'.trans hcap₁⟩
      · simp only [runPuts, hput, Option.some_bind]
        exact hrun
      · have he : (kv₂ :: rest₂).reverse ++ (k, v) :: accA
            = ((k, v) :: kv₂ :: rest₂).reverse ++ accA := by
          simp
        rw [← he]
        exact hrel'

/-- A zero-capacity cache accepts each `put` and immediately evicts the new
entry again. -/
theorem put_zero_cap {c : LruCache K V} (hr : Rel c []) (hcap : c.capacity = 0)
    (k : K) (v : V) :
    ∃ c', c.put k v = some c' ∧ Rel c' [] ∧ c'.len = 0 ∧ c'.is_empty = true := by
  have hk : mapLookup c.map k = none := by
    obtain ⟨addrs, hw⟩ := id hr
    exact hw.lookup_none_iff.mpr (by simp)
  obtain ⟨c', hput, hrel, hmap, hcap'⟩ := put_new_evict hr hk
    (by omega) [] k v rfl
  have hlen : c'.len = 0 := by
    obtain ⟨addrs', hw'⟩ := id hrel
    simpa using hw'.len_eq
  have hmnil : c'.map = [] := List.length_eq_zero.mp hlen
  exact ⟨c', hput, hrel, hlen, by simp [LruCache.is_empty, hmnil]⟩

/-!
## The claims
-/

/-- C1: the claim says `put(K, V1); put(K, V2); get(K)` returns `V2` with
`len()` unchanged.  The code disagrees: `put` on an existing key overwrites
only the linked-list node's copy of the value (line 79) while `get` returns
the copy stored in the `HashMap` (line 62), which the update never touches.
Evaluating the embedded code at capacity 2 with `put(1,10); put(1,20);
get(1)` yields the stale value `10` (and `len() = 1`), not `20`. -/
theorem c1_update_stale :
    (((LruCache.new 2 : LruCache Nat Nat).put 1 10).bind fun c =>
      (c.put 1 20).bind fun c' =>
        (c'.get 1).map fun r => (r.1, r.2.len)) = some (some 10, 1) := by
  rfl

/-- C2 counterexample: `new` cannot fail — it returns `Self` for every
capacity, performing no validation.  `new(0)` produces an ordinary cache
(capacity field 0, empty map) on which `put` succeeds, so no constructor
error is ever reported for capacity 0. -/
theorem c2_new_zero_accepted :
    (LruCache.new 0 : LruCache Nat Nat)
      = ⟨0, [], fun _ => none, none, none, 0⟩ ∧
    ((LruCache.new 0 : LruCache Nat Nat).put 7 42).isSome = true := ⟨rfl, rfl⟩

/-- C2 amended: `new(capacity)` accepts every capacity, including 0, and
stores it unclamped; a zero-capacity cache remains usable — each `put`
inserts the entry and immediately evicts it again, leaving the cache
empty. -/
theorem c2_amended_zero_capacity :
    (∀ cap : Nat, (LruCache.new cap : LruCache K V).capacity = cap ∧
      (LruCache.new cap : LruCache K V).len = 0) ∧
    ∀ (k : K) (v : V), ∃ c', (LruCache.new 0 : LruCache K V).put k v = some c' ∧
      c'.len = 0 ∧ c'.is_empty = true := by
  refine ⟨fun cap => ⟨rfl, rfl⟩, fun k v => ?_⟩
  obtain ⟨c', hput, hrel, hlen, hemp⟩ := put_zero_cap (rel_new 0) rfl k v
  exact ⟨c', hput, hlen, hemp⟩

/-- C3: from any reachable state, `put` succeeds and afterwards
`len() ≤ capacity`; when the insertion of a new key exceeds capacity the
call performs exactly one eviction, of the tail entry: `len` is back to its
old value, the old tail key is gone, the new key is present, and every other
binding is untouched. -/
theorem c3_capacity_bound {c : LruCache K V} (hrc : Reach c) (k : K) (v : V) :
    ∃ c', c.put k v = some c' ∧ c'.len ≤ c.capacity ∧
      (mapLookup c.map k = none → c.capacity < c.len + 1 →
        c'.len = c.len ∧
        (0 < c.len → ∃ kt, c.tailKey = some kt ∧ mapLookup c'.map kt = none ∧
          (mapLookup c'.map k).isSome = true ∧
          ∀ k', ¬ k' = kt → ¬ k' = k → mapLookup c'.map k' = mapLookup c.map k')) := by
  obtain ⟨A, hr, hle⟩ := reach_spec hrc
  have hlenA : c.len = A.length := by
    obtain ⟨addrs, hw⟩ := id hr
    exact hw.len_eq
  rcases hl : mapLookup c.map k with - | vp
  · by_cases hfit : A.length + 1 ≤ c.capacity
    · obtain ⟨c', hput, hrel, hmap, hcap⟩ := put_new_fits hr hl hfit v
      have hlen' : c'.len = A.length + 1 := by
        show c'.map.length = A.length + 1
        rw [hmap, List.length_cons, ← hlenA]
        rfl
      refine ⟨c', hput, by omega, ?_⟩
      intro _ hover
      omega
    · have hover : c.capacity < A.length + 1 := by omega
      rcases List.eq_nil_or_concat A with hAnil | ⟨A₀, kvt, hAC⟩
      · subst hAnil
        simp only [List.length_nil] at hlenA hover
        obtain ⟨c', hput, hrel, hmap, hcap⟩ := put_new_evict hr hl hover [] k v rfl
        have hlen' : c'.len = 0 := by
          obtain ⟨ad, hw'⟩ := id hrel
          simpa using hw'.len_eq
        refine ⟨c', hput, by omega, fun _ _ => ⟨by omega, fun h0 => absurd h0 (by omega)⟩⟩
      · obtain ⟨kt, vt⟩ := kvt
        rw [List.concat_eq_append] at hAC
        obtain ⟨c', hput, hrel, hmap, hcap⟩ := put_new_evict hr hl hover
          ((k, v) :: A₀) kt vt (v := v) (by rw [hAC]; rfl)
        obtain ⟨addrs, hw⟩ := id hr
        have htk : c.tailKey = some kt := by
          rw [hAC] at hw
          exact hw.tailKey_last
        have hknotA : k ∉ A.map Prod.fst := hw.lookup_none_iff.mp hl
        have hktA : kt ∈ A.map Prod.fst := by rw [hAC]; simp
        have hkkt : ¬ k = kt := fun he => hknotA (he ▸ hktA)
        have hlen' : c'.len = A.length := by
          obtain ⟨ad', hw'⟩ := id hrel
          have h1 : c'.len = ((k, v) :: A₀).length := hw'.len_eq
          rw [h1, List.length_cons, hAC, List.length_append]
          simp
        refine ⟨c', hput, by omega, fun _ _ => ⟨by omega, fun _ => ⟨kt, htk, ?_, ?_, ?_⟩⟩⟩
        · rw [hmap]
          exact mapRemove_lookup_self
        · rw [hmap, mapRemove_lookup_ne hkkt]
          simp [mapLookup]
        · intro k' hk't hk'k
          rw [hmap, mapRemove_lookup_ne hk't]
          simp [mapLookup, hk'k]
  · obtain ⟨v₀, p⟩ := vp
    obtain ⟨addrs, hw⟩ := id hr
    obtain ⟨front, rest, A₁, A₂, haddrs, hA, hflen⟩ := hw.hit_split hl
    rw [hA] at hr
    obtain ⟨c', p', hput, hlook', hrel, hmap, hcap, hfresh, hkv⟩ := put_hit hr v
    have hlen' : c'.len = c.len := by
      show c'.map.length = c.map.length
      rw [hmap]
    refine ⟨c', hput, by omega, ?_⟩
    intro hnone
    exact absurd hnone (by simp)

/-- C7: `get` on an absent key (in particular a key never inserted) returns
`none` and leaves the entire cache state — hence also `len()` — unchanged
(lines 50-54, 63-65 of the source: the miss branch returns before any
mutation). -/
theorem c7_miss_no_side_effects {c : LruCache K V} {k : K}
    (hl : mapLookup c.map k = none) : c.get k = some (none, c) :=
  get_miss hl

/-- C10: `new(0)` succeeds — it is an ordinary cache with capacity 0 and no
entries — and on every reachable zero-capacity cache each `put` completes by
inserting the entry and immediately evicting it, so `len()` is 0 and
`is_empty()` is true afterwards. -/
theorem c10_zero_capacity :
    ((LruCache.new 0 : LruCache K V).capacity = 0 ∧
      (LruCache.new 0 : LruCache K V).len = 0) ∧
    ∀ c : LruCache K V, Reach c → c.capacity = 0 → ∀ (k : K) (v : V),
      ∃ c', c.put k v = some c' ∧ c'.len = 0 ∧ c'.is_empty = true := by
  refine ⟨⟨rfl, rfl⟩, fun c hrc hcap k v => ?_⟩
  obtain ⟨A, hr, hle⟩ := reach_spec hrc
  have hAnil : A = [] := by
    rw [← List.length_eq_zero]
    omega
  subst hAnil
  obtain ⟨c', hput, hrel, hlen, hemp⟩ := put_zero_cap hr hcap k v
  exact ⟨c', hput, hlen, hemp⟩

/-- C4: for capacity `C ≥ 1`, putting `C+1` distinct keys into a fresh cache
with no intervening `get` leaves the cache holding exactly the last `C` keys
in reverse insertion order (most recent first — the final key is
most-recent): the first key is absent (`get` on it returns `none` with no
state change) and all later keys are present. -/
theorem c4_recency_eviction {cap : Nat} (hcap : 1 ≤ cap) {kvs : List (K × V)}
    (hlen : kvs.length = cap + 1) (hnd : (kvs.map Prod.fst).Nodup) :
    ∃ c', runPuts (LruCache.new cap : LruCache K V) kvs = some c' ∧
      Rel c' ((kvs.drop 1).reverse) ∧
      (∀ k₁ v₁, kvs.head? = some (k₁, v₁) → c'.get k₁ = some (none, c')) ∧
      ∀ kv ∈ kvs.drop 1, (mapLookup c'.map kv.1).isSome = true := by
  obtain ⟨c', hrun, hrel, hcap'⟩ := runPuts_spec kvs (rel_new cap) (by simp)
    (by simpa using hlen) (by simpa using hnd)
  rcases kvs with - | ⟨⟨k₁, v₁⟩, rest⟩
  · simp at hlen
  · have habs : ((((k₁, v₁) :: rest).reverse ++ ([] : List (K × V)))).dropLast
        = rest.reverse := by
      rw [List.append_nil, List.reverse_cons, List.dropLast_concat]
    rw [habs] at hrel
    have hdrop : ((k₁, v₁) :: rest).drop 1 = rest := rfl
    rw [List.map_cons, List.nodup_cons] at hnd
    refine ⟨c', hrun, by rw [hdrop]; exact hrel, ?_, ?_⟩
    · intro k₁' v₁' hh
      have hh' : (k₁, v₁) = (k₁', v₁') := by simpa using hh
      injection hh' with h1 h2
      subst h1
      have hnotk : k₁ ∉ rest.reverse.map Prod.fst := by
        intro hm
        exact hnd.1 (((List.reverse_perm rest).map Prod.fst).mem_iff.mp hm)
      obtain ⟨ad, hw'⟩ := id hrel
      exact get_miss (hw'.lookup_none_iff.mpr hnotk)
    · intro kv hm
      rw [hdrop] at hm
      obtain ⟨ad, hw'⟩ := id hrel
      exact hw'.isSome_iff.mpr (((List.reverse_perm rest).map Prod.fst).mem_iff.mpr
        (List.mem_map.mpr ⟨kv, hm, rfl⟩))

/-- C5: with capacity 2, after `put(A)`, `put(B)` the recency order is B, A;
a `get(A)` promotes A, so the following `put(C)` evicts B and not A. -/
theorem c5_promotion_on_read {ka kb kc : K} (hba : ¬ kb = ka) (hca : ¬ kc = ka)
    (hcb : ¬ kc = kb) (va vb vc : V) :
    ∃ c₁ c₂ c₃ c₄, (LruCache.new 2 : LruCache K V).put ka va = some c₁ ∧
      c₁.put kb vb = some c₂ ∧ c₂.get ka = some (some va, c₃) ∧
      c₃.put kc vc = some c₄ ∧
      mapLookup c₄.map kb = none ∧ (mapLookup c₄.map ka).isSome = true ∧
      Rel c₄ [(kc, vc), (ka, va)] := by
  have hbc : ¬ kb = kc := fun h => hcb h.symm
  have hac : ¬ ka = kc := fun h => hca h.symm
  have hab : ¬ ka = kb := fun h => hba h.symm
  have hfit₁ : ([] : List (K × V)).length + 1 ≤ (LruCache.new 2 : LruCache K V).capacity := by
    show 0 + 1 ≤ 2
    omega
  obtain ⟨c₁, h1, hrel₁, hmap₁, hcap₁⟩ :=
    put_new_fits (rel_new 2) (K := K) (V := V) (k := ka) rfl hfit₁ va
  have hcap₁' : c₁.capacity = 2 := hcap₁
  have hk₂ : mapLookup c₁.map kb = none := by
    obtain ⟨ad, hw⟩ := id hrel₁
    exact hw.lookup_none_iff.mpr (by simp [hba])
  have hfit₂ : [(ka, va)].length + 1 ≤ c₁.capacity := by
    rw [hcap₁']
    show 1 + 1 ≤ 2
    omega
  obtain ⟨c₂, h2, hrel₂, hmap₂, hcap₂⟩ := put_new_fits hrel₁ hk₂ hfit₂ vb
  have hcap₂' : c₂.capacity = 2 := hcap₂.trans hcap₁'
  have hrel₂' : Rel c₂ ([(kb, vb)] ++ (ka, va) :: []) := hrel₂
  obtain ⟨c₃, h3, hrel₃, hmap₃, hcap₃, hfresh₃, hkv₃⟩ := get_hit hrel₂'
  have hcap₃' : c₃.capacity = 2 := hcap₃.trans hcap₂'
  have hrel₃' : Rel c₃ [(ka, va), (kb, vb)] := by simpa using hrel₃
  have hk₄ : mapLookup c₃.map kc = none := by
    obtain ⟨ad, hw⟩ := id hrel₃'
    exact hw.lookup_none_iff.mpr (by simp [hca, hcb])
  have hover₄ : c₃.capacity < [(ka, va), (kb, vb)].length + 1 := by
    rw [hcap₃']
    show 2 < 2 + 1
    omega
  obtain ⟨c₄, h4, hrel₄, hmap₄, hcap₄⟩ := put_new_evict hrel₃' hk₄
    hover₄ [(kc, vc), (ka, va)] kb vb (v := vc) rfl
  obtain ⟨ad, hw₄⟩ := id hrel₄
  refine ⟨c₁, c₂, c₃, c₄, h1, h2, h3, h4, ?_, ?_, hrel₄⟩
  · exact hw₄.lookup_none_iff.mpr (by simp [hbc, hba])
  · exact hw₄.isSome_iff.mpr (by simp)

/-- C6 (invariant I1): in every reachable state the Recency Order is a
well-formed, finite (hence acyclic) doubly linked chain from `head` to
`tail` with no node listed twice, each listed node's key appears exactly once
among the order and exactly once among the map's keys, and a key is in the
map precisely when some node of the chain carries it. -/
theorem c6_store_order_bijection {c : LruCache K V} (hrc : Reach c) :
    ∃ (A : List (K × V)) (addrs : List Nat), dlseg c.heap addrs none c.head c.tail none ∧
      addrs.Nodup ∧ addrs.length = A.length ∧ (A.map Prod.fst).Nodup ∧
      (∀ pk ∈ addrs.zip A, ∃ nd, c.heap pk.1 = some nd ∧ nd.key = pk.2.1) ∧
      (c.map.map Prod.fst).Nodup ∧
      (∀ k, (mapLookup c.map k).isSome = true ↔
        ∃ p ∈ addrs, ∃ nd, c.heap p = some nd ∧ nd.key = k) := by
  obtain ⟨A, ⟨addrs, hw⟩, hle⟩ := reach_spec hrc
  refine ⟨A, addrs, hw.chain, hw.nodupAddrs, hw.lenEq, hw.nodupKeys, hw.nodeKeys,
    hw.mapNodupKeys, ?_⟩
  intro k
  constructor
  · intro hs
    obtain ⟨⟨v, p⟩, hvp⟩ := Option.isSome_iff_exists.mp hs
    have hz := hw.lookup_iff.mp hvp
    obtain ⟨nd, hnd, hkey⟩ := hw.nodeKeys _ hz
    exact ⟨p, (List.mem_zip hz).1, nd, hnd, hkey⟩
  · rintro ⟨p, hp, nd, hnd, hkey⟩
    obtain ⟨s, t, hst⟩ := List.append_of_mem hp
    have hlt : s.length < A.length := by
      rw [← hw.lenEq, hst]
      simp
    obtain ⟨B₁, kv, B₂, hB, hBlen⟩ := split_at_length A s.length hlt
    obtain ⟨k', v'⟩ := kv
    have hz : (p, (k', v')) ∈ addrs.zip A := by
      rw [hst, hB, zip_middle _ _ _ _ _ _ hBlen.symm]
      exact List.mem_append_right _ (List.mem_cons_self _ _)
    obtain ⟨nd', hnd', hkey'⟩ := hw.nodeKeys _ hz
    rw [hnd] at hnd'
    injection hnd' with he
    subst he
    have hkey'' : nd.key = k' := hkey'
    have hkk : k' = k := hkey''.symm.trans hkey
    have hz' : (p, (k, v')) ∈ addrs.zip A := hkk ▸ hz
    have hlook : mapLookup c.map k = some (v', p) := hw.lookup_iff.mpr hz'
    rw [hlook]
    rfl

/-- C8: for a key present in a reachable cache, reading its value, writing
that same value back with `put`, and reading again returns the same value
and leaves `len()` unchanged. -/
theorem c8_round_trip {c : LruCache K V} (hrc : Reach c) {k : K} {v : V} {p : Nat}
    (hl : mapLookup c.map k = some (v, p)) :
    ∃ c₁ c₂ c₃, c.get k = some (some v, c₁) ∧ c₁.put k v = some c₂ ∧
      c₂.get k = some (some v, c₃) ∧ c₃.len = c.len := by
  obtain ⟨A, hr, hle⟩ := reach_spec hrc
  obtain ⟨addrs, hw⟩ := id hr
  obtain ⟨front, rest, A₁, A₂, haddrs, hA, hflen⟩ := hw.hit_split hl
  rw [hA] at hr
  obtain ⟨c₁, hget₁, hrel₁, hmap₁, -, -, -⟩ := get_hit hr
  have hrel₁' : Rel c₁ ([] ++ (k, v) :: (A₁ ++ A₂)) := hrel₁
  obtain ⟨c₂, p₂, hput₂, hlook₂, hrel₂, hmap₂, -, -, -⟩ := put_hit hrel₁' v
  have hrel₂' : Rel c₂ ([] ++ (k, v) :: (A₁ ++ A₂)) := hrel₂
  obtain ⟨c₃, hget₃, hrel₃, hmap₃, -, -, -⟩ := get_hit hrel₂'
  refine ⟨c₁, c₂, c₃, hget₁, hput₂, hget₃, ?_⟩
  show c₃.map.length = c.map.length
  rw [hmap₃, hmap₂, hmap₁]

/-- C9: `put` on an already-present key never evicts: the map — and with it
`len()` and the set of present keys — is untouched, and no heap cell other
than the key's own node changes its (key, value) content, even when the
cache is full. -/
theorem c9_put_present_no_eviction {c : LruCache K V} (hrc : Reach c) {k : K}
    {v₀ : V} {p : Nat} (hl : mapLookup c.map k = some (v₀, p)) (v : V) :
    ∃ c', c.put k v = some c' ∧ c'.map = c.map ∧ c'.len = c.len ∧
      c'.capacity = c.capacity ∧
      (∀ k', mapLookup c'.map k' = mapLookup c.map k') ∧
      ∀ a, ¬ a = p → kvView c'.heap a = kvView c.heap a := by
  obtain ⟨A, hr, hle⟩ := reach_spec hrc
  obtain ⟨addrs, hw⟩ := id hr
  obtain ⟨front, rest, A₁, A₂, haddrs, hA, hflen⟩ := hw.hit_split hl
  rw [hA] at hr
  obtain ⟨c', p', hput, hlook', hrel, hmap, hcap, hfresh, hkv⟩ := put_hit hr v
  have hp : p' = p := by
    have := hl.symm.trans hlook'
    injection this with h
    exact (congrArg Prod.snd h).symm
  refine ⟨c', hput, hmap, ?_, hcap, fun k' => by rw [hmap], ?_⟩
  · show c'.map.length = c.map.length
    rw [hmap]
  · intro a ha
    exact hkv a (by rw [hp]; exact ha)

/-!
## Witnesses
-/

/-- A concrete reachable cache: the result of `put(1, 10)` on `new(2)`. -/
def sampleCache : LruCache Nat Nat :=
  { capacity := 2, map := [(1, (10, 0))],
    heap := heapSet (fun _ => none) 0 (LruNode.new 1 10),
    head := some 0, tail := some 0, fresh := 1 }

theorem sampleCache_reach : Reach sampleCache :=
  Reach.put (Reach.new 2) (by rfl)

theorem c3_witness : ∃ c', (LruCache.new 2 : LruCache Nat Nat).put 5 7 = some c' ∧
    c'.len ≤ (LruCache.new 2 : LruCache Nat Nat).capacity ∧
    (mapLookup (LruCache.new 2 : LruCache Nat Nat).map 5 = none →
      (LruCache.new 2 : LruCache Nat Nat).capacity
        < (LruCache.new 2 : LruCache Nat Nat).len + 1 →
      c'.len = (LruCache.new 2 : LruCache Nat Nat).len ∧
      (0 < (LruCache.new 2 : LruCache Nat Nat).len → ∃ kt,
        (LruCache.new 2 : LruCache Nat Nat).tailKey = some kt ∧
        mapLookup c'.map kt = none ∧ (mapLookup c'.map 5).isSome = true ∧
        ∀ k', ¬ k' = kt → ¬ k' = 5 →
          mapLookup c'.map k' = mapLookup (LruCache.new 2 : LruCache Nat Nat).map k')) :=
  c3_capacity_bound (Reach.new 2) 5 7

theorem c4_witness : ∃ c', runPuts (LruCache.new 3 : LruCache Nat Nat)
      [(0, 10), (1, 11), (2, 12), (3, 13)] = some c' ∧
    Rel c' (([(0, 10), (1, 11), (2, 12), (3, 13)].drop 1).reverse) ∧
    (∀ k₁ v₁, [(0, 10), (1, 11), (2, 12), (3, 13)].head? = some (k₁, v₁) →
      c'.get k₁ = some (none, c')) ∧
    ∀ kv ∈ [(0, 10), (1, 11), (2, 12), (3, 13)].drop 1,
      (mapLookup c'.map kv.1).isSome = true :=
  @c4_recency_eviction Nat Nat _ 3 (by decide) [(0, 10), (1, 11), (2, 12), (3, 13)]
    (by decide) (by decide)

theorem c5_witness : ∃ c₁ c₂ c₃ c₄,
    (LruCache.new 2 : LruCache Nat Nat).put 0 10 = some c₁ ∧
    c₁.put 1 11 = some c₂ ∧ c₂.get 0 = some (some 10, c₃) ∧
    c₃.put 2 12 = some c₄ ∧
    mapLookup c₄.map 1 = none ∧ (mapLookup c₄.map 0).isSome = true ∧
    Rel c₄ [(2, 12), (0, 10)] :=
  c5_promotion_on_read (by decide) (by decide) (by decide) 10 11 12

theorem c6_witness : ∃ (A : List (Nat × Nat)) (addrs : List Nat),
    dlseg (LruCache.new 2 : LruCache Nat Nat).heap addrs none
      (LruCache.new 2 : LruCache Nat Nat).head
      (LruCache.new 2 : LruCache Nat Nat).tail none ∧
    addrs.Nodup ∧ addrs.length = A.length ∧ (A.map Prod.fst).Nodup ∧
    (∀ pk ∈ addrs.zip A, ∃ nd,
      (LruCache.new 2 : LruCache Nat Nat).heap pk.1 = some nd ∧ nd.key = pk.2.1) ∧
    ((LruCache.new 2 : LruCache Nat Nat).map.map Prod.fst).Nodup ∧
    (∀ k, (mapLookup (LruCache.new 2 : LruCache Nat Nat).map k).isSome = true ↔
      ∃ p ∈ addrs, ∃ nd,
        (LruCache.new 2 : LruCache Nat Nat).heap p = some nd ∧ nd.key = k) :=
  c6_store_order_bijection (Reach.new 2)

theorem c7_witness : (LruCache.new 2 : LruCache Nat Nat).get 5
    = some (none, (LruCache.new 2 : LruCache Nat Nat)) :=
  c7_miss_no_side_effects rfl

theorem c8_witness : ∃ c₁ c₂ c₃, sampleCache.get 1 = some (some 10, c₁) ∧
    c₁.put 1 10 = some c₂ ∧ c₂.get 1 = some (some 10, c₃) ∧
    c₃.len = sampleCache.len :=
  c8_round_trip sampleCache_reach (p := 0) rfl

theorem c9_witness : ∃ c', sampleCache.put 1 99 = some c' ∧
    c'.map = sampleCache.map ∧ c'.len = sampleCache.len ∧
    c'.capacity = sampleCache.capacity ∧
    (∀ k', mapLookup c'.map k' = mapLookup sampleCache.map k') ∧
    ∀ a, ¬ a = 0 → kvView c'.heap a = kvView sampleCache.heap a :=
  @c9_put_present_no_eviction Nat Nat _ sampleCache sampleCache_reach 1 10 0 rfl 99

theorem c10_witness : ∃ c', (LruCache.new 0 : LruCache Nat Nat).put 3 4 = some c' ∧
    c'.len = 0 ∧ c'.is_empty = true :=
  (c10_zero_capacity (K := Nat) (V := Nat)).2 _ (Reach.new 0) rfl 3 4

end LruDemo
